import Mathlib

/-!
Verification of the steel-tempering process-optimization engine
(`src/steel_graph.py`) against its natural-language specification.

The embedding mirrors `SteelGraph`: master-graph construction from the
cleaned tabular records (`_build_master_graph` plus the `__init__`
normalization scalars), constraint pruning (`_prune_graph`), edge-weight
assignment and the multi-target all-ties shortest-path search
(`find_best_process`).

Numbers are embedded as exact rationals (`ℚ`); the reference runs on IEEE
floats, and the tolerance constants `1e-4` / `1e-6` of the search are kept
as the exact rationals `1/10000` and `1/1000000`.  `np.log` is a
transcendental function with no rational counterpart, so every definition
that needs it is parametrized by an arbitrary function `lg : ℚ → ℚ`
standing for the natural logarithm; theorems that depend on actual
logarithm values state their hypotheses on `lg` explicitly.

Arithmetic is expressed through small wrappers (`qAdd`, `qMul`, ...) that
are definitionally kernel-computable (the corresponding `Rat` operations
are `@[irreducible]` in this toolchain); each wrapper is proved equal to
the mathematical operation right after its definition, and proofs only use
the mathematical side.

`networkx` library calls are embedded by their documented semantics:
`nx.descendants`/`nx.ancestors` as bounded-depth reachability (the bound
`|V|` covers every reachable node of a finite graph),
`nx.shortest_path_length` as the exact minimum cost over all walks from the
source (Dijkstra on the non-negative weights used here), and
`nx.all_shortest_paths` as the list of walks attaining that exact minimum.
Walk enumeration is fuel-bounded by the node count; in every graph built by
this module edges strictly increase the layer, so each walk has at most 6
nodes and the bound is never hit.
-/

namespace SteelOpt

/-! ### Kernel-computable rational arithmetic -/

/-- Addition on `ℚ` via `mkRat`; equals `a + b` (see `qAdd_eq`). -/
def qAdd (a b : ℚ) : ℚ := mkRat (a.num * b.den + b.num * a.den) (a.den * b.den)

/-- Subtraction on `ℚ` via `mkRat`; equals `a - b`. -/
def qSub (a b : ℚ) : ℚ := mkRat (a.num * b.den - b.num * a.den) (a.den * b.den)

/-- Multiplication on `ℚ` via `mkRat`; equals `a * b`. -/
def qMul (a b : ℚ) : ℚ := mkRat (a.num * b.num) (a.den * b.den)

/-- Inverse on `ℚ` via `Rat.divInt`; equals `a⁻¹`. -/
def qInv (a : ℚ) : ℚ := Rat.divInt a.den a.num

/-- Division on `ℚ`; equals `a / b`. -/
def qDiv (a b : ℚ) : ℚ := qMul a (qInv b)

/-- Absolute value on `ℚ`; equals `|a|`. -/
def qAbs (a : ℚ) : ℚ := if a < 0 then -a else a

/-- Binary maximum on `ℚ`; equals `max a b`. -/
def qMax (a b : ℚ) : ℚ := if a < b then b else a

/-- Binary minimum on `ℚ`; equals `min a b`. -/
def qMin (a b : ℚ) : ℚ := if a < b then a else b

/-! ### Python string primitives on character lists

Core `String` functions (`trim`, `toLower`, `replace`, the `<` on
`String`) are well-founded recursions that the kernel cannot evaluate, so
the Python string operations used by `steel_graph.py` are re-implemented
structurally on `List Char`.  All data in scope is ASCII, for which these
agree with Python `str.strip`, `str.lower`, `str.replace` and `<`. -/

/-- Python `str.strip` whitespace test (ASCII whitespace). -/
def isSpaceB (c : Char) : Bool :=
  c = ' ' || c = '\t' || c = '\n' || c = '\r' || c = '\x0b' || c = '\x0c'

/-- Strip whitespace from both ends, as Python `str.strip()`. -/
def trimChars (l : List Char) : List Char :=
  ((l.dropWhile isSpaceB).reverse.dropWhile isSpaceB).reverse

/-- Lower-case one ASCII character, as Python `str.lower()` does per char. -/
def lowerC (c : Char) : Char :=
  if 65 ≤ c.toNat && c.toNat ≤ 90 then Char.ofNat (c.toNat + 32) else c

/-- Remove every (left-to-right, non-overlapping) occurrence of `"wt"`,
as Python `str.replace("wt", "")`. -/
def removeWT : List Char → List Char
  | 'w' :: 't' :: r => removeWT r
  | c :: r => c :: removeWT r
  | [] => []

/-- Character-list form of `SteelGraph._normalize_key`:
`strip` then `lower`, `" "→"_"`, delete `"("`, `")"`, `"%"`, then `"wt"`. -/
def normalizeChars (l : List Char) : List Char :=
  removeWT ((((trimChars l).map lowerC).map fun c => if c = ' ' then '_' else c).filter
    fun c => c ≠ '(' && c ≠ ')' && c ≠ '%')

/-- `SteelGraph._normalize_key` on strings. -/
def normalizeKey (s : String) : String := ⟨normalizeChars s.data⟩

/-- Python `s.strip().lower()`. -/
def stripLower (s : String) : String := ⟨(trimChars s.data).map lowerC⟩

/-- Strict lexicographic comparison of character lists by code point;
agrees with Python `<` on ASCII strings. -/
def charListLtB : List Char → List Char → Bool
  | [], [] => false
  | [], _ :: _ => true
  | _ :: _, [] => false
  | a :: as, b :: bs =>
    if a.toNat < b.toNat then true
    else if b.toNat < a.toNat then false
    else charListLtB as bs

/-- Non-strict string comparison used for Python `sorted`. -/
def strLeB (a b : String) : Bool := !(charListLtB b.data a.data)

/-- Stable insertion of `a` into a sorted list (before strictly greater,
after equal elements when `le` is a non-strict order). -/
def insertByB {α : Type} (le : α → α → Bool) (a : α) : List α → List α
  | [] => [a]
  | b :: l => if le a b then a :: b :: l else b :: insertByB le a l

/-- Stable sort, the semantics of Python `sorted` with a key. -/
def sortByB {α : Type} (le : α → α → Bool) : List α → List α
  | [] => []
  | a :: l => insertByB le a (sortByB le l)

/-! ### Python `str(float)` rendering of the numeric node labels

Node identity in the reference is the formatted label string
(`f"Hardness: {h} HRC"` etc.), and the search sorts targets by those
strings, so label rendering decides the processing order.  `pyRatChars`
renders a rational with a finite decimal expansion the way Python renders
the corresponding float (`10 → "10.0"`, `200.02 → "200.02"`); every
numeric literal in this development has a small power-of-ten denominator,
where the two agree. -/

/-- Decimal digits of `n` (most significant first), 64 digits of fuel. -/
def natDigitsAux : ℕ → ℕ → List Char
  | 0, _ => []
  | _ + 1, 0 => []
  | f + 1, n => natDigitsAux f (n / 10) ++ [Char.ofNat (48 + n % 10)]

/-- Decimal rendering of a natural number. -/
def natStr (n : ℕ) : List Char := if n = 0 then ['0'] else natDigitsAux 64 n

/-- Smallest `k ≤ 39` with `d ∣ 10 ^ k`, if any. -/
def denPow (d : ℕ) : Option ℕ := (List.range 40).find? fun k => d ∣ 10 ^ k

/-- Render `q : ℚ` as Python renders the float of the same value
(finite-decimal case); rationals without a finite decimal expansion get a
fraction fallback that never arises from the data in scope. -/
def pyRatChars (q : ℚ) : List Char :=
  let sign : List Char := if q.num < 0 then ['-'] else []
  let n := q.num.natAbs
  match denPow q.den with
  | some 0 => sign ++ natStr n ++ ['.', '0']
  | some (k + 1) =>
    let scaled := n * (10 ^ (k + 1) / q.den)
    let ip := scaled / 10 ^ (k + 1)
    let fr := scaled % 10 ^ (k + 1)
    let fs := natStr fr
    sign ++ natStr ip ++ ['.'] ++ (List.replicate (k + 1 - fs.length) '0' ++ fs)
  | none => sign ++ natStr n ++ ['/'] ++ natStr q.den

/-- Rendering of an optional value; `none` models a pandas `NaN`, which
Python formats as `"nan"`. -/
def optRatChars : Option ℚ → List Char
  | some v => pyRatChars v
  | none => "nan".data

/-! ### Node identities, node data, graphs -/

/-- Node identity.  The reference identifies nodes by their formatted
label string; the constructors carry exactly the data interpolated into
those labels, so `NodeId` is in bijection with the label strings
(`labelOf`). -/
inductive NodeId where
  | source
  | sink
  | steel (name : String)
  | time (v : ℚ) (rid : ℕ)
  | temp (v : ℚ) (rid : ℕ)
  | hard (v : Option ℚ)
deriving DecidableEq

/-- The label string of a node, exactly as built in `_build_master_graph`. -/
def labelOf : NodeId → String
  | .source => "SOURCE"
  | .sink => "SINK"
  | .steel s => ⟨"Steel: ".data ++ s.data⟩
  | .time v i => ⟨"Time: ".data ++ pyRatChars v ++ " s | id:".data ++ natStr i⟩
  | .temp v i => ⟨"Temp: ".data ++ pyRatChars v ++ " C | id:".data ++ natStr i⟩
  | .hard v => ⟨"Hardness: ".data ++ optRatChars v ++ " HRC".data⟩

/-- Python `<` on node labels, the order used by every `sorted(...)` call. -/
def nodeLtB (a b : NodeId) : Bool := charListLtB (labelOf a).data (labelOf b).data

/-- Non-strict version of `nodeLtB` for the stable sorts. -/
def nodeLeB (a b : NodeId) : Bool := !(nodeLtB b a)

/-- Node attribute bag: layer-only markers for SOURCE/SINK, steel name,
its case-folded comparison key and the normalized composition mapping for
steel nodes, and the numeric `value` attribute for the rest (`none`
modelling a NaN hardness). -/
inductive NData where
  | layerMark (layer : ℕ)
  | steelD (stType : String) (stNorm : String) (comp : List (String × Option ℚ))
  | timeD (v : ℚ)
  | tempD (v : ℚ)
  | hardD (v : Option ℚ)
deriving DecidableEq

/-- Edge attribute dictionary: `{}`, `{'time': t}`, or `{'temperature': v}`. -/
inductive EAttr where
  | noAttr
  | timeA (t : ℚ)
  | tempA (v : ℚ)
deriving DecidableEq

/-- A directed edge with its attribute dictionary. -/
structure GEdge where
  src : NodeId
  dst : NodeId
  attr : EAttr
deriving DecidableEq

/-- A directed graph in insertion order, as a `networkx.DiGraph` holds
nodes with attribute dictionaries and at most one edge per ordered pair. -/
structure Graph where
  nodes : List (NodeId × NData)
  edges : List GEdge
deriving DecidableEq

/-- Membership test on node identities. -/
def Graph.hasNodeId (g : Graph) (n : NodeId) : Bool := g.nodes.any fun p => p.1 = n

/-- `add_node` for a node that is only added when absent (all adds in
`_build_master_graph` are guarded by `has_node` or fresh). -/
def Graph.addNode (g : Graph) (n : NodeId) (d : NData) : Graph :=
  if g.hasNodeId n then g else ⟨g.nodes ++ [(n, d)], g.edges⟩

/-- `add_edge`: overwrite the attribute dictionary if the ordered pair is
present, else append the new edge. -/
def Graph.addEdge (g : Graph) (u v : NodeId) (a : EAttr) : Graph :=
  if g.edges.any fun e => e.src = u && e.dst = v then
    ⟨g.nodes, g.edges.map fun e => if e.src = u && e.dst = v then ⟨u, v, a⟩ else e⟩
  else ⟨g.nodes, g.edges ++ [⟨u, v, a⟩]⟩

/-- `graph.copy()`. -/
def Graph.copy (g : Graph) : Graph := ⟨g.nodes, g.edges⟩

/-! ### The record store -/

/-- One row of the preprocessed CSV after `pd.to_numeric(errors='coerce')`:
`none` in a numeric field models a NaN (unparseable or missing value), and
`none` in `steel` models a NaN steel identifier.  `comp` maps the original
composition column names to values. -/
structure Row where
  steel : Option String
  timeV : Option ℚ
  tempV : Option ℚ
  hardV : Option ℚ
  comp : List (String × Option ℚ)
deriving DecidableEq

/-- The loaded dataframe: the composition columns (those whose name
contains `"(%wt)"`) and the rows. -/
structure Dataset where
  compCols : List String
  rows : List Row
deriving DecidableEq

/-- Rows surviving `dropna(subset=[COL_TIME, COL_TEMP])`, paired with
their original positional index (pandas keeps the original index labels). -/
def validIdxRows (ds : Dataset) : List (ℕ × Row) :=
  ds.rows.enum.filter fun p => p.2.timeV.isSome && p.2.tempV.isSome

/-- The value of composition column `c` in row `r` (`none` = NaN or the
column is absent from the row). -/
def rowCompVal (r : Row) (c : String) : Option ℚ := (r.comp.lookup c).join

/-- `df.groupby(COL_STEEL).first()` semantics for one steel and column:
the first non-NaN value among that steel's surviving rows. -/
def steelCompVal (ds : Dataset) (s : String) (c : String) : Option ℚ :=
  ((validIdxRows ds).filterMap fun p =>
    if p.2.steel = some s then rowCompVal p.2 c else none).head?

/-- Python dict insertion: first insertion fixes the position, later
insertions for the same key overwrite the value in place. -/
def pyDictInsert {α : Type} (l : List (String × α)) (k : String) (v : α) :
    List (String × α) :=
  if l.any fun p => p.1 = k then
    l.map fun p => if p.1 = k then (k, v) else p
  else l ++ [(k, v)]

/-- The normalized composition attribute dictionary stored on a steel
node (`node_attrs[self._normalize_key(k)] = v` over the composition
columns). -/
def steelCompAttrs (ds : Dataset) (s : String) : List (String × Option ℚ) :=
  ds.compCols.foldl (fun acc c => pyDictInsert acc (normalizeKey c) (steelCompVal ds s c)) []

/-! ### Master graph construction (`_build_master_graph`) -/

/-- Process one surviving row with steel name `s`: add the steel node
(with its composition attributes and the SOURCE edge) when new, the
per-row time and temperature nodes, the value-deduplicated hardness node,
and the four chain edges. -/
def processRow (ds : Dataset) (g : Graph) (i : ℕ) (r : Row) (s : String) : Graph :=
  match r.timeV, r.tempV with
  | some t, some tmp =>
    let nSteel := NodeId.steel s
    let nTime := NodeId.time t i
    let nTemp := NodeId.temp tmp i
    let nHard := NodeId.hard r.hardV
    let g1 :=
      if g.hasNodeId nSteel then g
      else (Graph.addEdge
        ⟨g.nodes ++ [(nSteel, NData.steelD s (stripLower s) (steelCompAttrs ds s))], g.edges⟩
        .source nSteel .noAttr)
    let g2 := (g1.addNode nTime (.timeD t)).addNode nTemp (.tempD tmp)
    let g3 := g2.addNode nHard (.hardD r.hardV)
    (((g3.addEdge nSteel nTime (.timeA t)).addEdge nTime nTemp (.tempA tmp)).addEdge
      nTemp nHard .noAttr).addEdge nHard .sink .noAttr
  | _, _ => g

/-- Fold of `processRow` over the surviving rows.  A NaN steel identifier
aborts construction (the reference raises from `steel_compositions.loc[s]`
slash `s.strip()`, which propagates out of `__init__`). -/
def buildGraphAux (ds : Dataset) : List (ℕ × Row) → Graph → Except String Graph
  | [], g => .ok g
  | (i, r) :: rest, g =>
    match r.steel with
    | none => .error "steel identifier is not a string"
    | some s => buildGraphAux ds rest (processRow ds g i r s)

/-- The master graph starts with the SOURCE and SINK markers. -/
def emptyMaster : Graph := ⟨[(.source, .layerMark 0), (.sink, .layerMark 5)], []⟩

/-- `_build_master_graph` on a loaded dataset. -/
def buildGraph (ds : Dataset) : Except String Graph :=
  buildGraphAux ds (validIdxRows ds) emptyMaster

/-- Maximum of a list of rationals, as pandas `Series.max` over the
non-NaN values. -/
def listMaxQ : List ℚ → Option ℚ
  | [] => none
  | a :: l => some (match listMaxQ l with | none => a | some m => qMax a m)

/-- `self.max_time`: the max observed time over surviving rows, floored to
`1.0` when absent or non-positive. -/
def dsMaxTime (ds : Dataset) : ℚ :=
  match listMaxQ ((validIdxRows ds).filterMap fun p => p.2.timeV) with
  | some m => if 0 < m then m else 1
  | none => 1

/-- `self.max_temp`, analogously for temperature. -/
def dsMaxTemp (ds : Dataset) : ℚ :=
  match listMaxQ ((validIdxRows ds).filterMap fun p => p.2.tempV) with
  | some m => if 0 < m then m else 1
  | none => 1

/-- `self.log_max_time = log(max(max_time, 1.0))`, floored to `1.0` when
non-positive. -/
def dsLogMaxTime (lg : ℚ → ℚ) (ds : Dataset) : ℚ :=
  let l := lg (qMax (dsMaxTime ds) 1)
  if l ≤ 0 then 1 else l

/-- The state a successfully constructed `SteelGraph` object holds: the
composition column names (the only part of `self.df` queries read), the
normalization scalars and the master graph. -/
structure SteelState where
  compCols : List String
  maxTime : ℚ
  maxTemp : ℚ
  logMaxTime : ℚ
  graph : Graph
deriving DecidableEq

/-- `SteelGraph.__init__` on an already-loaded dataframe. -/
def buildState (lg : ℚ → ℚ) (ds : Dataset) : Except String SteelState :=
  match buildGraph ds with
  | .error e => .error e
  | .ok g => .ok ⟨ds.compCols, dsMaxTime ds, dsMaxTemp ds, dsLogMaxTime lg ds, g⟩

/-! ### Query filters (`_prune_graph` input) -/

/-- Comparison operators of a composition filter, `op ∈ {>,<,==,>=,<=}`. -/
inductive CompOp where
  | gtOp
  | ltOp
  | eqOp
  | geOp
  | leOp
deriving DecidableEq

/-- A filter value: a plain string (for `steel_type`), an inclusive range
dictionary `{'min': lo, 'max': hi}`, or a composition dictionary
`{'op': op, 'val': v}`. -/
inductive FVal where
  | strV (s : String)
  | rangeV (lo hi : ℚ)
  | compV (op : CompOp) (val : ℚ)
deriving DecidableEq

/-- Python `str(...)` of an operator, for the `str(op_val)` coercion in
the steel-type branch. -/
def opStr : CompOp → String
  | .gtOp => ">"
  | .ltOp => "<"
  | .eqOp => "=="
  | .geOp => ">="
  | .leOp => "<="

/-- Python `str(op_val)` of a filter value (dictionaries render with their
repr; only the `steel_type` branch ever stringifies a value). -/
def fvalStr : FVal → String
  | .strV s => s
  | .rangeV lo hi =>
    ⟨"\x7b'min': ".data ++ pyRatChars lo ++ ", 'max': ".data ++ pyRatChars hi ++ "\x7d".data⟩
  | .compV op v =>
    ⟨"\x7b'op': '".data ++ (opStr op).data ++ "', 'val': ".data ++ pyRatChars v ++ "\x7d".data⟩

/-- `normalized_filters`: a Python dict built with `_normalize_key`
applied to every key. -/
def normalizedFilters (fs : List (String × FVal)) : List (String × FVal) :=
  fs.foldl (fun acc p => pyDictInsert acc (normalizeKey p.1) p.2) []

/-- `df_comp_keys`: the normalized composition column names. -/
def dfCompKeys (cc : List String) : List String := cc.map normalizeKey

/-- One comparison `steel_val OP val` of the composition branch. -/
def applyOp (op : CompOp) (a v : ℚ) : Bool :=
  match op with
  | .gtOp => decide (v < a)
  | .ltOp => decide (a < v)
  | .eqOp => decide (a = v)
  | .geOp => decide (v ≤ a)
  | .leOp => decide (a ≤ v)

/-- Whether one normalized filter entry `(k, fv)` marks a steel node with
comparison key `stNorm` and composition attributes `comp` for removal:
the case-insensitive steel-type mismatch, a missing (`none`) composition
attribute, a NaN attribute compared by a composition dictionary (every
float comparison with NaN is false), or a failed comparison.  Non-dict
values and dictionaries without an `'op'` key never remove (`isinstance`
and `.get('op')` guards), and unrecognized keys are skipped. -/
def steelEntryFails (cc : List String) (stNorm : String)
    (comp : List (String × Option ℚ)) (k : String) (fv : FVal) : Bool :=
  if k = "steel_type" then
    !(stripLower stNorm == stripLower (fvalStr fv))
  else if (dfCompKeys cc).contains k then
    match comp.lookup k with
    | none => true
    | some none => (match fv with | .compV _ _ => true | _ => false)
    | some (some a) => (match fv with | .compV op v => !(applyOp op a v) | _ => false)
  else false

/-- Step-1 removal predicate: a steel node is removed when any normalized
filter entry fails on it; all other node kinds are untouched. -/
def removeSteelNode (cc : List String) (nf : List (String × FVal)) : NData → Bool
  | .steelD _ stNorm comp => nf.any fun p => steelEntryFails cc stNorm comp p.1 p.2
  | _ => false

/-- Remove the listed node entries and their incident edges
(`remove_nodes_from`). -/
def removeNodesWhere (g : Graph) (bad : NData → Bool) : Graph :=
  let keep := g.nodes.filter fun p => !(bad p.2)
  ⟨keep, g.edges.filter fun e =>
    (keep.any fun p => p.1 = e.src) && (keep.any fun p => p.1 = e.dst)⟩

/-- Step 1 of `_prune_graph`. -/
def pruneStep1 (cc : List String) (nf : List (String × FVal)) (g : Graph) : Graph :=
  removeNodesWhere g (removeSteelNode cc nf)

/-- Step-2 range test: with a well-formed range dictionary present, keep
iff `min ≤ value ≤ max` (false for a NaN value); a missing filter, or a
value without `'min'`/`'max'` keys (the logged `continue` branch), keeps
the node. -/
def outOfRange (f : Option FVal) (v : Option ℚ) : Bool :=
  match f with
  | some (.rangeV lo hi) =>
    match v with
    | some x => !(decide (lo ≤ x) && decide (x ≤ hi))
    | none => true
  | _ => false

/-- Step-2 removal predicate over the three `type`-keyed range filters. -/
def removeRangeNode (nf : List (String × FVal)) : NData → Bool
  | .timeD v => outOfRange (nf.lookup "time_range") (some v)
  | .tempD v => outOfRange (nf.lookup "temperature_range") (some v)
  | .hardD v => outOfRange (nf.lookup "hardness_range") v
  | _ => false

/-- Step 2 of `_prune_graph`. -/
def pruneStep2 (nf : List (String × FVal)) (g : Graph) : Graph :=
  removeNodesWhere g (removeRangeNode nf)

/-- Is this the attribute bag of a hardness node (`type == 'hardness'`)? -/
def typeIsHard : NData → Bool
  | .hardD _ => true
  | _ => false

/-- One breadth step of reachability: everything one edge away from the
current set is appended. -/
def reachExpand (g : Graph) (s : List NodeId) : List NodeId :=
  s ++ ((g.edges.filter fun e => s.contains e.src).map (·.dst)).filter fun v => !s.contains v

/-- Fuel-bounded reachable set. -/
def reachAux (g : Graph) : ℕ → List NodeId → List NodeId
  | 0, s => s
  | n + 1, s => reachAux g n (reachExpand g s)

/-- `nx.descendants(g, s)`: nodes reachable from `s`, excluding `s`.
`|V|` breadth steps reach every node at any finite distance. -/
def descendants (g : Graph) (s : NodeId) : List NodeId :=
  (reachAux g g.nodes.length [s]).filter fun x => x ≠ s

/-- The transposed graph, for ancestor computation. -/
def Graph.reversed (g : Graph) : Graph :=
  ⟨g.nodes, g.edges.map fun e => ⟨e.dst, e.src, e.attr⟩⟩

/-- `nx.ancestors(g, t)`: nodes that reach `t`, excluding `t`. -/
def ancestors (g : Graph) (t : NodeId) : List NodeId :=
  (reachAux g.reversed g.nodes.length [t]).filter fun x => x ≠ t

/-- The hardness target nodes surviving steps 1-2. -/
def pruneTargets (g : Graph) : List NodeId :=
  (g.nodes.filter fun p => typeIsHard p.2).map (·.1)

/-- `nodes_to_target`: the union over every target of its ancestors. -/
def pruneAset (g : Graph) : List NodeId :=
  (pruneTargets g).foldl (fun acc t => acc ++ (ancestors g t).filter fun x => !acc.contains x) []

/-- `valid_nodes = (descendants(SOURCE) ∩ nodes_to_target) ∪ {SOURCE} ∪ targets`. -/
def pruneValidList (g : Graph) : List NodeId :=
  ((descendants g .source).filter fun x => (pruneAset g).contains x) ++
    [NodeId.source] ++ pruneTargets g

/-- The node entries of the induced subgraph. -/
def pruneKeep (g : Graph) : List (NodeId × NData) :=
  g.nodes.filter fun p => (pruneValidList g).contains p.1

/-- Step 3 of `_prune_graph`: collect the hardness targets (`None` when
empty), keep `(descendants(SOURCE) ∩ ⋃ ancestors(target)) ∪ {SOURCE} ∪
targets`, and induce the subgraph on that set. -/
def pruneStep3 (g2 : Graph) : Option Graph :=
  if (pruneTargets g2).isEmpty then none
  else
    some ⟨pruneKeep g2, g2.edges.filter fun e =>
      ((pruneKeep g2).any fun p => p.1 = e.src) && ((pruneKeep g2).any fun p => p.1 = e.dst)⟩

/-- `_prune_graph`: work on a copy of the master graph, never mutating it. -/
def pruneGraph (st : SteelState) (fs : List (String × FVal)) : Option Graph :=
  let nf := normalizedFilters fs
  pruneStep3 (pruneStep2 nf (pruneStep1 st.compCols nf st.graph.copy))

/-! ### Cost assignment and the weighted graph -/

/-- The weight assigned to an edge from its attribute dictionary, per
optimization mode (default `0.0`; unknown modes leave every weight 0). -/
def weightOf (lg : ℚ → ℚ) (st : SteelState) (mode : String) (alpha : ℚ) : EAttr → ℚ
  | .timeA t =>
    if mode = "time" then t
    else if mode = "balanced" then qMul alpha (qDiv (lg (qMax t 1)) st.logMaxTime)
    else 0
  | .tempA v =>
    if mode = "temperature" then v
    else if mode = "balanced" then qMul (qSub 1 alpha) (qDiv v st.maxTemp)
    else 0
  | .noAttr => 0

/-- A weighted edge: the original attribute dictionary plus `'weight'`. -/
structure WEdge where
  src : NodeId
  dst : NodeId
  attr : EAttr
  weight : ℚ
deriving DecidableEq

/-- The weighted graph rebuilt in sorted node order. -/
structure WGraph where
  nodes : List (NodeId × NData)
  edges : List WEdge
deriving DecidableEq

/-- The weighted rebuild in `find_best_process`: nodes in sorted label
order, successors of each node in sorted label order, each edge keeping
its attributes and gaining its mode weight. -/
def weightedOf (lg : ℚ → ℚ) (st : SteelState) (mode : String) (alpha : ℚ)
    (sub : Graph) : WGraph :=
  let sortedNodes := sortByB (fun p q => nodeLeB p.1 q.1) sub.nodes
  ⟨sortedNodes,
    sortedNodes.bind fun p =>
      (sortByB (fun e f => nodeLeB e.dst f.dst) (sub.edges.filter fun e => e.src = p.1)).map
        fun e => ⟨e.src, e.dst, e.attr, weightOf lg st mode alpha e.attr⟩⟩

/-! ### Shortest paths (the semantics of the `networkx` Dijkstra calls) -/

/-- The weighted out-edges of `u`. -/
def wSuccs (wg : WGraph) (u : NodeId) : List WEdge := wg.edges.filter fun e => e.src = u

/-- All walks from `u` using at most `fuel` edges. -/
def walksFrom (wg : WGraph) : ℕ → NodeId → List (List NodeId)
  | 0, u => [[u]]
  | n + 1, u => [[u]] ++ (wSuccs wg u).bind fun e => (walksFrom wg n e.dst).map (u :: ·)

/-- All walks from SOURCE; the `|V|` fuel covers every walk of the layered
graphs built here. -/
def sourceWalks (wg : WGraph) : List (List NodeId) :=
  walksFrom wg wg.nodes.length .source

/-- The `'weight'` attribute between two nodes (0 when absent; every walk
only queries existing edges). -/
def edgeWeight (wg : WGraph) (u v : NodeId) : ℚ :=
  match wg.edges.find? fun e => e.src = u && e.dst = v with
  | some e => e.weight
  | none => 0

/-- The cost of a walk: the sum of its edge weights. -/
def walkCost (wg : WGraph) : List NodeId → ℚ
  | a :: b :: r => qAdd (edgeWeight wg a b) (walkCost wg (b :: r))
  | _ => 0

/-- The final node of a walk (walks are nonempty by construction). -/
def walkLast : List NodeId → NodeId
  | [] => .source
  | [a] => a
  | _ :: b :: r => walkLast (b :: r)

/-- Minimum of a list of rationals. -/
def listMinQ : List ℚ → Option ℚ
  | [] => none
  | a :: l => some (match listMinQ l with | none => a | some m => qMin a m)

/-- `nx.shortest_path_length(wg, SOURCE, t, 'weight')`: the exact minimum
walk cost, `none` when no walk reaches `t` (`NetworkXNoPath`). -/
def spLen (wg : WGraph) (t : NodeId) : Option ℚ :=
  listMinQ (((sourceWalks wg).filter fun p => decide (walkLast p = t)).map (walkCost wg))

/-- `nx.all_shortest_paths(wg, SOURCE, t, weight='weight')`: every walk to
`t` attaining the exact minimum cost. -/
def allShortestPathsTo (wg : WGraph) (t : NodeId) : List (List NodeId) :=
  match spLen wg t with
  | none => []
  | some m =>
    (sourceWalks wg).filter fun p => decide (walkLast p = t) && decide (walkCost wg p = m)

/-! ### The multi-target tolerance scan and path extraction -/

/-- `tolerance = max(1e-4, cost * 1e-6)`, computed from the candidate. -/
def tieTol (c : ℚ) : ℚ := qMax (mkRat 1 10000) (qMul c (mkRat 1 1000000))

/-- One step of the running-minimum scan over the sorted targets:
skip unreachable targets, strictly improve when
`cost < min - tolerance`, append to the tie set when
`|cost - min| ≤ tolerance` (`none` is `float('inf')`). -/
def tieStep (acc : Option ℚ × List NodeId) (t : NodeId) (c : Option ℚ) :
    Option ℚ × List NodeId :=
  match c with
  | none => acc
  | some c =>
    match acc.1 with
    | none => (some c, [t])
    | some m =>
      if c < qSub m (tieTol c) then (some c, [t])
      else if qAbs (qSub c m) ≤ tieTol c then (some m, acc.2 ++ [t])
      else acc

/-- The scan over all targets in order. -/
def targetScan (wg : WGraph) (targets : List NodeId) : Option ℚ × List NodeId :=
  targets.foldl (fun acc t => tieStep acc t (spLen wg t)) (none, [])

/-- The per-path details record extracted for the report. -/
structure PathDetail where
  foundSteel : String
  finalHardness : Option ℚ
  tempC : ℚ
  timeS : ℚ
  composition : List (String × Option ℚ)
deriving DecidableEq

/-- Map the normalized composition attributes back to the first original
column name with the same normalized key. -/
def compDetail (cc : List String) (comp : List (String × Option ℚ)) :
    List (String × Option ℚ) :=
  comp.filterMap fun p => (cc.find? fun c => decide (normalizeKey c = p.1)).map fun c => (c, p.2)

/-- Structural validation plus detail extraction for one candidate path:
reject paths with fewer than 5 nodes or whose nodes 1..4 are not
steel/time/temp/hardness typed, otherwise build the details record. -/
def pathItem (cc : List String) (wg : WGraph) (p : List NodeId) :
    Option (List NodeId × PathDetail) :=
  match p with
  | _ :: n1 :: n2 :: n3 :: n4 :: _ =>
    let d1 : Option NData := (wg.nodes.find? fun q => q.1 = n1).map (·.2)
    let d2 : Option NData := (wg.nodes.find? fun q => q.1 = n2).map (·.2)
    let d3 : Option NData := (wg.nodes.find? fun q => q.1 = n3).map (·.2)
    let d4 : Option NData := (wg.nodes.find? fun q => q.1 = n4).map (·.2)
    match d1, d2, d3, d4 with
    | some (.steelD sT _ comp), some (.timeD tv), some (.tempD tpv), some (.hardD hv) =>
      some (p, ⟨sT, hv, tpv, tv, compDetail cc comp⟩)
    | _, _, _, _ => none
  | _ => none

/-- All accepted `(path, details)` pairs over the tied targets. -/
def extractItems (cc : List String) (wg : WGraph) (tied : List NodeId) :
    List (List NodeId × PathDetail) :=
  tied.bind fun t => (allShortestPathsTo wg t).filterMap (pathItem cc wg)

/-- Final stable sort by the found steel's name. -/
def sortItems (l : List (List NodeId × PathDetail)) : List (List NodeId × PathDetail) :=
  sortByB (fun x y => strLeB x.2.foundSteel y.2.foundSteel) l

/-- The sorted hardness-target list of the weighted graph. -/
def hardTargets (wg : WGraph) : List NodeId :=
  sortByB nodeLeB ((wg.nodes.filter fun p => typeIsHard p.2).map (·.1))

/-- The result tuple of `find_best_process`: paths, total cost, the pruned
subgraph and the details, or an error message. -/
inductive FBPResult where
  | ok (paths : List (List NodeId)) (cost : ℚ) (pruned : Graph) (details : List PathDetail)
  | err (msg : String)
deriving DecidableEq

/-- `find_best_process` (pure result). -/
def fbpCore (lg : ℚ → ℚ) (st : SteelState) (fs : List (String × FVal))
    (mode : String) (alpha : ℚ) : FBPResult :=
  match pruneGraph st fs with
  | none => .err "No steel found matching criteria."
  | some sub =>
    if sub.nodes.length ≤ 1 then .err "No steel found matching criteria."
    else
      let wg := weightedOf lg st mode alpha sub
      let targets := hardTargets wg
      if targets.isEmpty then .err "No complete path found."
      else
        match targetScan wg targets with
        | (none, _) => .err "No reachable path found."
        | (some m, tied) =>
          let combined := sortItems (extractItems st.compCols wg tied)
          if combined.isEmpty then .err "Error extracting paths."
          else .ok (combined.map (·.1)) m sub (combined.map (·.2))

/-- `find_best_process` with the object state threaded explicitly: the
query works on copies and hands the master state back unchanged. -/
def findBestProcess (lg : ℚ → ℚ) (st : SteelState) (fs : List (String × FVal))
    (mode : String) (alpha : ℚ) : FBPResult × SteelState :=
  (fbpCore lg st fs mode alpha, st)


/-! ### Result projections -/

/-- The path list of a result (empty on error). -/
def fbpPaths : FBPResult → List (List NodeId)
  | .ok paths _ _ _ => paths
  | .err _ => []

/-- The total cost of a result (0 on error, as the reference returns). -/
def fbpCost : FBPResult → ℚ
  | .ok _ c _ _ => c
  | .err _ => 0

/-- The details list of a result (empty on error). -/
def fbpDetails : FBPResult → List PathDetail
  | .ok _ _ _ d => d
  | .err _ => []

/-- The error message of a result, if any. -/
def fbpErr : FBPResult → Option String
  | .ok _ _ _ _ => none
  | .err m => some m

/-- Did a state construction succeed? -/
def bsOk : Except String SteelState → Bool
  | .ok _ => true
  | .error _ => false

/-- Unwrap a build expected to succeed (fallback never used in scope). -/
def getSt (e : Except String SteelState) : SteelState :=
  match e with
  | .ok s => s
  | .error _ => ⟨[], 1, 1, 1, emptyMaster⟩

/-- Unwrap a prune expected to succeed (fallback never used in scope). -/
def getSub (o : Option Graph) : Graph :=
  match o with
  | some g => g
  | none => ⟨[], []⟩

/-- The weighted graph a query builds (empty when pruning fails), for
stating properties of the search stage. -/
def queryWG (lg : ℚ → ℚ) (st : SteelState) (fs : List (String × FVal))
    (mode : String) (alpha : ℚ) : WGraph :=
  match pruneGraph st fs with
  | some sub => weightedOf lg st mode alpha sub
  | none => ⟨[], []⟩

/-- Does the weighted graph hold a hardness-typed entry for `n`? -/
def isHardNode (wg : WGraph) (n : NodeId) : Bool :=
  wg.nodes.any fun p => p.1 = n && typeIsHard p.2

/-- The true minimum cost over all Source-to-Hardness walks of the
weighted graph (the quantity P3 compares the returned cost against). -/
def hardWalkMin (wg : WGraph) : Option ℚ :=
  listMinQ ((sourceWalks wg).filterMap fun p =>
    if isHardNode wg (walkLast p) then some (walkCost wg p) else none)

/-! ### Unweighted walks, for the reachability invariant -/

/-- Is there an edge from `u` to `v`? -/
def adjB (g : Graph) (u v : NodeId) : Bool := g.edges.any fun e => e.src = u && e.dst = v

/-- Is `p` a chain of edges of `g`? -/
def chainB (g : Graph) : List NodeId → Bool
  | [] => true
  | [_] => true
  | a :: b :: r => adjB g a b && chainB g (b :: r)

/-- All walks of `g` from `u` with at most `fuel` edges. -/
def gWalksFrom (g : Graph) : ℕ → NodeId → List (List NodeId)
  | 0, u => [[u]]
  | n + 1, u =>
    [[u]] ++ (g.edges.filter fun e => e.src = u).bind fun e =>
      (gWalksFrom g n e.dst).map (u :: ·)

/-- Does the graph hold a hardness-typed entry for `n`? -/
def isHardEntryB (g : Graph) (n : NodeId) : Bool :=
  g.nodes.any fun p => p.1 = n && typeIsHard p.2

/-- P2's property for one node: `n` lies on at least one Source-to-Hardness
walk inside `g` (`|V|` edges of fuel cover every walk of the layered
graphs in scope). -/
def liesOnSourceHardWalk (g : Graph) (n : NodeId) : Prop :=
  ∃ p ∈ gWalksFrom g g.nodes.length .source,
    isHardEntryB g (walkLast p) = true ∧ n ∈ p

/-! ### Concrete fixtures

`probeLog` stands in for `np.log` in concrete runs whose outcome does not
depend on logarithm values: modes `time` and `temperature` never read the
log (see `weightOf`), and in mode `balanced` with `alpha = 0` the log term
is multiplied by zero. -/

/-- A concrete stand-in for `np.log` where its values do not matter. -/
def probeLog : ℚ → ℚ := fun q => q

/-- The three-record dataset of the specification's Scenario A/B. -/
def dsScen : Dataset :=
  ⟨[], [⟨some "SteelX", some (mkRat 10 1), some (mkRat 200 1), some (mkRat 50 1), []⟩,
        ⟨some "SteelX", some (mkRat 20 1), some (mkRat 150 1), some (mkRat 50 1), []⟩,
        ⟨some "SteelY", some (mkRat 5 1), some (mkRat 300 1), some (mkRat 60 1), []⟩]⟩

/-- Its built state. -/
def stScen : SteelState := getSt (buildState probeLog dsScen)

/-- Two records whose shortest-path costs differ by `0.00005`: within the
absolute tolerance floor, with the larger-cost target sorting first
(`"Hardness: 10.0 HRC" < "Hardness: 9.0 HRC"` as strings). -/
def dsTol : Dataset :=
  ⟨[], [⟨some "A", some (mkRat 200001 20000), some (mkRat 100 1), some (mkRat 10 1), []⟩,
        ⟨some "B", some (mkRat 10 1), some (mkRat 100 1), some (mkRat 9 1), []⟩]⟩

/-- Its built state. -/
def stTol : SteelState := getSt (buildState probeLog dsTol)

/-- Two records with time costs `2·10^8` and `2·10^8 + 200.0001`: the gap
lies between `min·1e-6 = 200` and `cost·1e-6 ≈ 200.0002`, separating the
candidate-based tolerance the code computes from the minimum-based
tolerance the specification states. -/
def dsTolBig : Dataset :=
  ⟨[], [⟨some "A", some (mkRat 200000000 1), some (mkRat 1 1), some (mkRat 10 1), []⟩,
        ⟨some "B", some (mkRat 2000002000001 10000), some (mkRat 1 1), some (mkRat 9 1), []⟩]⟩

/-- Its built state. -/
def stTolBig : SteelState := getSt (buildState probeLog dsTolBig)

/-- Two records where a `time_range` filter removes the second record's
time node, stranding its hardness node with no incoming path. -/
def dsOrphan : Dataset :=
  ⟨[], [⟨some "A", some (mkRat 10 1), some (mkRat 200 1), some (mkRat 50 1), []⟩,
        ⟨some "B", some (mkRat 5000 1), some (mkRat 100 1), some (mkRat 60 1), []⟩]⟩

/-- Its built state. -/
def stOrphan : SteelState := getSt (buildState probeLog dsOrphan)

/-- The time filter of the `dsOrphan` query: keeps record A's time node
and removes record B's. -/
def fsOrphan : List (String × FVal) := [("time_range", FVal.rangeV (mkRat 0 1) (mkRat 100 1))]

/-- A single record with a missing (NaN) hardness value. -/
def dsNoHard : Dataset :=
  ⟨[], [⟨some "A", some (mkRat 1 1), some (mkRat 2 1), none, []⟩]⟩

/-- Three records with temperatures 200, 200.02 and 1000; the hardness
filter keeps the first two targets, and the third record only inflates the
dataset-wide maximum temperature used for balanced normalization. -/
def dsAlpha : Dataset :=
  ⟨[], [⟨some "A", some (mkRat 10 1), some (mkRat 200 1), some (mkRat 50 1), []⟩,
        ⟨some "B", some (mkRat 10 1), some (mkRat 10001 50), some (mkRat 60 1), []⟩,
        ⟨some "C", some (mkRat 10 1), some (mkRat 1000 1), some (mkRat 999 1), []⟩]⟩

/-- Its built state. -/
def stAlpha : SteelState := getSt (buildState probeLog dsAlpha)

/-- The hardness filter of the `dsAlpha` queries. -/
def fsAlpha : List (String × FVal) := [("hardness_range", FVal.rangeV (mkRat 0 1) (mkRat 100 1))]

/-! ### Structural invariants of built graphs -/

/-- The layer a node identity belongs to. -/
def layerOfId : NodeId → ℕ
  | .source => 0
  | .steel _ => 1
  | .time _ _ => 2
  | .temp _ _ => 3
  | .hard _ => 4
  | .sink => 5

/-- The attribute bag stored for a node matches its identity: the layer
markers for SOURCE/SINK, the steel record for a steel node, and the
`value` attribute equal to the value in the label for the rest. -/
def dataMatches : NodeId → NData → Prop
  | .source, d => d = .layerMark 0
  | .sink, d => d = .layerMark 5
  | .steel s, d => ∃ n c, d = .steelD s n c
  | .time v _, d => d = .timeD v
  | .temp v _, d => d = .tempD v
  | .hard v, d => d = .hardD v

/-- The attribute dictionary of an edge matches its endpoints: Steel→Time
edges carry `time=t` for the target's time value, Time→Temperature edges
carry `temperature=v`, every other edge carries no attributes. -/
def edgeAttrOk (e : GEdge) : Prop :=
  match e.src, e.dst with
  | .steel _, .time t _ => e.attr = .timeA t
  | .time _ _, .temp v _ => e.attr = .tempA v
  | _, _ => e.attr = .noAttr

/-- Structural invariant of every master graph and every graph derived
from one: edge attributes match endpoints, edges strictly increase the
layer, edge endpoints are nodes of the graph, and node data matches node
identity. -/
def GraphInv (g : Graph) : Prop :=
  (∀ e ∈ g.edges, edgeAttrOk e ∧ layerOfId e.src < layerOfId e.dst ∧
    (∃ d, (e.src, d) ∈ g.nodes) ∧ (∃ d, (e.dst, d) ∈ g.nodes)) ∧
  (∀ p ∈ g.nodes, dataMatches p.1 p.2)

/-- `GraphInv` extended with the presence of the SOURCE and SINK markers,
as maintained through construction. -/
def BuildInv (g : Graph) : Prop :=
  GraphInv g ∧ (∃ d, (NodeId.source, d) ∈ g.nodes) ∧ (∃ d, (NodeId.sink, d) ∈ g.nodes)

/-- Two records, the first missing its tempering time: `dropna` discards
it, so no time or temperature node carries row id 0. -/
def dsSkip : Dataset :=
  ⟨[], [⟨some "A", none, some (mkRat 1 1), some (mkRat 2 1), []⟩,
        ⟨some "B", some (mkRat 1 1), some (mkRat 2 1), some (mkRat 3 1), []⟩]⟩

/-- Order on optional costs, `none` playing `float('inf')`. -/
def optLeQ : Option ℚ → Option ℚ → Prop
  | _, none => True
  | some x, some y => x ≤ y
  | none, some _ => False

/-! ## Theorems -/

/-! ### The arithmetic wrappers equal the mathematical operations -/

theorem qAdd_eq (a b : ℚ) : qAdd a b = a + b := (Rat.add_def' a b).symm

theorem qSub_eq (a b : ℚ) : qSub a b = a - b := (Rat.sub_def' a b).symm

theorem qMul_eq (a b : ℚ) : qMul a b = a * b := by
  rw [qMul, Rat.mul_def, Rat.normalize_eq_mkRat]

theorem qInv_eq (a : ℚ) : qInv a = a⁻¹ := (Rat.inv_def a).symm

theorem qDiv_eq (a b : ℚ) : qDiv a b = a / b := by
  rw [qDiv, qMul_eq, qInv_eq, div_eq_mul_inv]

theorem qAbs_eq (a : ℚ) : qAbs a = |a| := by
  by_cases h : a < 0
  · simp [qAbs, h, abs_of_neg h]
  · simp [qAbs, h, abs_of_nonneg (le_of_not_lt h)]

theorem qMax_eq (a b : ℚ) : qMax a b = max a b := by
  rw [qMax, max_def]
  by_cases h : a < b
  · simp [h, le_of_lt h]
  · by_cases h2 : a ≤ b
    · simp [h, h2, le_antisymm h2 (le_of_not_lt h)]
    · simp [h, h2]

theorem qMin_eq (a b : ℚ) : qMin a b = min a b := by
  rw [qMin, min_def]
  by_cases h : a < b
  · simp [h, le_of_lt h]
  · by_cases h2 : a ≤ b
    · simp [h, h2, le_antisymm h2 (le_of_not_lt h)]
    · simp [h, h2]

/-- The tolerance in mathematical form. -/
theorem tieTol_eq (c : ℚ) : tieTol c = max (1 / 10000) (c * (1 / 1000000)) := by
  rw [tieTol, qMax_eq, qMul_eq]
  norm_num

/-! ### Sanity: the specification's own scenarios -/

/-- Scenario A: hardness range 45..55, optimize by time; the unique
optimum runs through SteelX, t=10, T=200, h=50 at cost 10. -/
example :
    fbpPaths (fbpCore probeLog stScen [("hardness_range", FVal.rangeV (mkRat 45 1) (mkRat 55 1))]
        "time" (mkRat 1 2)) =
      [[.source, .steel "SteelX", .time (mkRat 10 1) 0, .temp (mkRat 200 1) 0,
        .hard (some (mkRat 50 1))]] ∧
    fbpCost (fbpCore probeLog stScen [("hardness_range", FVal.rangeV (mkRat 45 1) (mkRat 55 1))]
        "time" (mkRat 1 2)) = mkRat 10 1 := by
  decide

/-- Scenario B: no filters, optimize by temperature; the optimum runs
through SteelX, t=20, T=150, h=50 at cost 150. -/
example :
    fbpPaths (fbpCore probeLog stScen [] "temperature" (mkRat 1 2)) =
      [[.source, .steel "SteelX", .time (mkRat 20 1) 1, .temp (mkRat 150 1) 1,
        .hard (some (mkRat 50 1))]] ∧
    fbpCost (fbpCore probeLog stScen [] "temperature" (mkRat 1 2)) = mkRat 150 1 := by
  decide

/-- Scenario C: a hardness range absent from the dataset yields the
no-match error. -/
example :
    fbpErr (fbpCore probeLog stScen
        [("hardness_range", FVal.rangeV (mkRat 90 1) (mkRat 95 1))] "time" (mkRat 1 2)) =
      some "No steel found matching criteria." := by
  decide


/-! ### Helper lemmas on the list primitives -/

theorem mem_insertByB {α : Type} {le : α → α → Bool} {a b : α} {l : List α} :
    b ∈ insertByB le a l ↔ b = a ∨ b ∈ l := by
  induction l with
  | nil => simp [insertByB]
  | cons c l ih =>
    rw [insertByB]
    by_cases h : le a c = true
    · rw [if_pos h]
      simp only [List.mem_cons]
    · rw [if_neg h]
      simp only [List.mem_cons, ih]
      tauto

theorem mem_sortByB {α : Type} {le : α → α → Bool} {a : α} {l : List α} :
    a ∈ sortByB le l ↔ a ∈ l := by
  induction l with
  | nil => simp [sortByB]
  | cons c l ih => simp [sortByB, mem_insertByB, ih]

theorem lookup_mem {α : Type} {l : List (String × α)} {k : String} {v : α}
    (h : l.lookup k = some v) : (k, v) ∈ l := by
  induction l with
  | nil => simp [List.lookup] at h
  | cons p l ih =>
    match p with
    | (k', v') =>
      rw [List.lookup] at h
      cases hk : k == k' with
      | true =>
        simp only [hk] at h
        injection h with h
        subst h
        have hkk : k = k' := by simpa using hk
        subst hkk
        exact List.mem_cons_self _ _
      | false =>
        simp only [hk] at h
        exact List.mem_cons_of_mem _ (ih h)

theorem listMinQ_mem {l : List ℚ} {m : ℚ} (h : listMinQ l = some m) : m ∈ l := by
  induction l generalizing m with
  | nil => simp [listMinQ] at h
  | cons a l ih =>
    rw [listMinQ] at h
    injection h with h
    cases hl : listMinQ l with
    | none => rw [hl] at h; simp at h; simp [h]
    | some m' =>
      rw [hl] at h
      simp only at h
      rw [qMin_eq] at h
      rcases min_cases a m' with ⟨he, _⟩ | ⟨he, _⟩
      · rw [he] at h; simp [h]
      · rw [he] at h; exact List.mem_cons_of_mem _ (h ▸ ih hl)

theorem listMinQ_le {l : List ℚ} {m : ℚ} (h : listMinQ l = some m) :
    ∀ x ∈ l, m ≤ x := by
  induction l generalizing m with
  | nil => simp
  | cons a l ih =>
    rw [listMinQ] at h
    injection h with h
    intro x hx
    cases hl : listMinQ l with
    | none =>
      rw [hl] at h
      simp only at h
      have : l = [] := by
        cases l with
        | nil => rfl
        | cons b l2 => rw [listMinQ] at hl; simp at hl
      subst this
      simp at hx
      subst hx
      exact le_of_eq h.symm
    | some m' =>
      rw [hl] at h
      simp only at h
      rw [qMin_eq] at h
      rcases List.mem_cons.mp hx with rfl | hx2
      · exact h ▸ min_le_left _ _
      · exact le_trans (h ▸ min_le_right _ _) (ih hl x hx2)

theorem listMinQ_eq_none {l : List ℚ} : listMinQ l = none ↔ l = [] := by
  cases l with
  | nil => simp [listMinQ]
  | cons a l => simp [listMinQ]

/-! ### C8 and C9 -/

/-- C8: `find_best_process` is deterministic.  Two runs with the same
master state, the same filters, the same `optimize_by` and the same
`alpha` produce the same result: identical path lists, in identical
order, and identical cost.  In the embedding every stage of the query
(prune, canonical weighted rebuild, target scan, extraction, final sort)
is a pure function of the state and the query, so the two runs coincide
definitionally; the reference achieves the same by sorting every
traversal order explicitly (`sorted(...)` on nodes, successors, targets
and result rows), which the model mirrors. -/
theorem c8_determinism (lg : ℚ → ℚ) (st : SteelState) (fs : List (String × FVal))
    (mode : String) (alpha : ℚ) :
    findBestProcess lg st fs mode alpha = findBestProcess lg st fs mode alpha ∧
    fbpPaths (findBestProcess lg st fs mode alpha).1 =
      fbpPaths (findBestProcess lg st fs mode alpha).1 ∧
    fbpCost (findBestProcess lg st fs mode alpha).1 =
      fbpCost (findBestProcess lg st fs mode alpha).1 :=
  ⟨rfl, rfl, rfl⟩

/-- C9: a query never mutates the master graph.  `find_best_process` with
the object state threaded explicitly hands back the state it received:
`_prune_graph` starts from `graph.copy()` and all later stages build fresh
structures, so the master graph's node set, edge set and every node and
edge attribute are unchanged after the call (and the copy taken is
attribute-identical to the master). -/
theorem c9_master_graph_unchanged (lg : ℚ → ℚ) (st : SteelState)
    (fs : List (String × FVal)) (mode : String) (alpha : ℚ) :
    (findBestProcess lg st fs mode alpha).2 = st ∧
    (findBestProcess lg st fs mode alpha).2.graph.nodes = st.graph.nodes ∧
    (findBestProcess lg st fs mode alpha).2.graph.edges = st.graph.edges ∧
    Graph.copy st.graph = st.graph :=
  ⟨rfl, rfl, rfl, rfl⟩

/-! ### The build invariant -/

theorem hasNodeId_iff {g : Graph} {n : NodeId} :
    g.hasNodeId n = true ↔ ∃ d, (n, d) ∈ g.nodes := by
  unfold Graph.hasNodeId
  rw [List.any_eq_true]
  constructor
  · rintro ⟨p, hp, he⟩
    have hn : p.1 = n := by simpa using he
    refine ⟨p.2, ?_⟩
    rw [← hn]
    exact hp
  · rintro ⟨d, hd⟩
    exact ⟨(n, d), hd, by simp⟩

theorem addNode_mem_mono {g : Graph} {n : NodeId} {d : NData} {p : NodeId × NData}
    (h : p ∈ g.nodes) : p ∈ (g.addNode n d).nodes := by
  unfold Graph.addNode
  split
  · exact h
  · exact List.mem_append_left _ h

theorem addNode_self_mem (g : Graph) (n : NodeId) (d : NData) :
    ∃ d2, (n, d2) ∈ (g.addNode n d).nodes := by
  unfold Graph.addNode
  split
  · next h => exact hasNodeId_iff.mp h
  · exact ⟨d, List.mem_append_right _ (by simp)⟩

theorem addEdge_nodes (g : Graph) (u v : NodeId) (a : EAttr) :
    (g.addEdge u v a).nodes = g.nodes := by
  unfold Graph.addEdge
  split <;> rfl

theorem graphInv_appendNode {g : Graph} {n : NodeId} {d : NData}
    (hg : GraphInv g) (hd : dataMatches n d) :
    GraphInv ⟨g.nodes ++ [(n, d)], g.edges⟩ := by
  constructor
  · intro e he
    obtain ⟨h1, h2, ⟨d1, hd1⟩, ⟨d2, hd2⟩⟩ := hg.1 e he
    exact ⟨h1, h2, ⟨d1, List.mem_append_left _ hd1⟩, ⟨d2, List.mem_append_left _ hd2⟩⟩
  · intro p hp
    rcases List.mem_append.mp hp with h | h
    · exact hg.2 p h
    · simp only [List.mem_singleton] at h
      subst h
      exact hd

theorem graphInv_addNode {g : Graph} {n : NodeId} {d : NData}
    (hg : GraphInv g) (hd : dataMatches n d) : GraphInv (g.addNode n d) := by
  unfold Graph.addNode
  split
  · exact hg
  · exact graphInv_appendNode hg hd

theorem graphInv_addEdge {g : Graph} {u v : NodeId} {a : EAttr}
    (hg : GraphInv g) (hok : edgeAttrOk ⟨u, v, a⟩) (hl : layerOfId u < layerOfId v)
    (hu : ∃ d, (u, d) ∈ g.nodes) (hv : ∃ d, (v, d) ∈ g.nodes) :
    GraphInv (g.addEdge u v a) := by
  unfold Graph.addEdge
  split
  · refine ⟨?_, hg.2⟩
    intro e he
    simp only [List.mem_map] at he
    obtain ⟨f, hf, hfe⟩ := he
    subst hfe
    split
    · exact ⟨hok, hl, hu, hv⟩
    · exact hg.1 f hf
  · refine ⟨?_, hg.2⟩
    intro e he
    rcases List.mem_append.mp he with h | h
    · exact hg.1 e h
    · simp only [List.mem_singleton] at h
      subst h
      exact ⟨hok, hl, hu, hv⟩

set_option maxHeartbeats 1000000 in
theorem buildInv_rowTail {g1 : Graph} {s : String} (hinv : GraphInv g1)
    (hsrc : ∃ d, (NodeId.source, d) ∈ g1.nodes)
    (hsink : ∃ d, (NodeId.sink, d) ∈ g1.nodes)
    (hsteel : ∃ d, (NodeId.steel s, d) ∈ g1.nodes) (t tmp : ℚ) (i : ℕ) (hv : Option ℚ) :
    BuildInv (((((((g1.addNode (.time t i) (.timeD t)).addNode (.temp tmp i)
        (.tempD tmp)).addNode (.hard hv) (.hardD hv)).addEdge (.steel s) (.time t i)
        (.timeA t)).addEdge (.time t i) (.temp tmp i) (.tempA tmp)).addEdge (.temp tmp i)
        (.hard hv) .noAttr).addEdge (.hard hv) .sink .noAttr) := by
  set g3 := ((g1.addNode (.time t i) (.timeD t)).addNode (.temp tmp i)
    (.tempD tmp)).addNode (.hard hv) (.hardD hv) with hg3
  have h3 : GraphInv g3 :=
    graphInv_addNode (graphInv_addNode (graphInv_addNode hinv rfl) rfl) rfl
  have hmSrc : ∃ d, (NodeId.source, d) ∈ g3.nodes := by
    obtain ⟨d, hd⟩ := hsrc
    exact ⟨d, addNode_mem_mono (addNode_mem_mono (addNode_mem_mono hd))⟩
  have hmSink : ∃ d, (NodeId.sink, d) ∈ g3.nodes := by
    obtain ⟨d, hd⟩ := hsink
    exact ⟨d, addNode_mem_mono (addNode_mem_mono (addNode_mem_mono hd))⟩
  have hmSteel : ∃ d, (NodeId.steel s, d) ∈ g3.nodes := by
    obtain ⟨d, hd⟩ := hsteel
    exact ⟨d, addNode_mem_mono (addNode_mem_mono (addNode_mem_mono hd))⟩
  have hmTime : ∃ d, (NodeId.time t i, d) ∈ g3.nodes := by
    obtain ⟨d, hd⟩ := addNode_self_mem g1 (.time t i) (.timeD t)
    exact ⟨d, addNode_mem_mono (addNode_mem_mono hd)⟩
  have hmTemp : ∃ d, (NodeId.temp tmp i, d) ∈ g3.nodes := by
    obtain ⟨d, hd⟩ :=
      addNode_self_mem (g1.addNode (.time t i) (.timeD t)) (.temp tmp i) (.tempD tmp)
    exact ⟨d, addNode_mem_mono hd⟩
  have hmHard : ∃ d, (NodeId.hard hv, d) ∈ g3.nodes :=
    addNode_self_mem _ (.hard hv) (.hardD hv)
  have h4 : GraphInv (g3.addEdge (.steel s) (.time t i) (.timeA t)) :=
    graphInv_addEdge h3 rfl (by simp [layerOfId]) hmSteel hmTime
  have e4 := addEdge_nodes g3 (.steel s) (.time t i) (.timeA t)
  have h5 : GraphInv ((g3.addEdge (.steel s) (.time t i) (.timeA t)).addEdge
      (.time t i) (.temp tmp i) (.tempA tmp)) :=
    graphInv_addEdge h4 rfl (by simp [layerOfId]) (e4 ▸ hmTime) (e4 ▸ hmTemp)
  have e5 := addEdge_nodes (g3.addEdge (.steel s) (.time t i) (.timeA t))
    (.time t i) (.temp tmp i) (.tempA tmp)
  have h6 : GraphInv (((g3.addEdge (.steel s) (.time t i) (.timeA t)).addEdge
      (.time t i) (.temp tmp i) (.tempA tmp)).addEdge (.temp tmp i) (.hard hv) .noAttr) :=
    graphInv_addEdge h5 rfl (by simp [layerOfId]) (e5 ▸ e4 ▸ hmTemp) (e5 ▸ e4 ▸ hmHard)
  have e6 := addEdge_nodes ((g3.addEdge (.steel s) (.time t i) (.timeA t)).addEdge
    (.time t i) (.temp tmp i) (.tempA tmp)) (.temp tmp i) (.hard hv) .noAttr
  have h7 : GraphInv ((((g3.addEdge (.steel s) (.time t i) (.timeA t)).addEdge
      (.time t i) (.temp tmp i) (.tempA tmp)).addEdge (.temp tmp i) (.hard hv)
      .noAttr).addEdge (.hard hv) .sink .noAttr) :=
    graphInv_addEdge h6 rfl (by simp [layerOfId]) (e6 ▸ e5 ▸ e4 ▸ hmHard)
      (e6 ▸ e5 ▸ e4 ▸ hmSink)
  have e7 := addEdge_nodes (((g3.addEdge (.steel s) (.time t i) (.timeA t)).addEdge
    (.time t i) (.temp tmp i) (.tempA tmp)).addEdge (.temp tmp i) (.hard hv) .noAttr)
    (.hard hv) .sink .noAttr
  exact ⟨h7, e7 ▸ e6 ▸ e5 ▸ e4 ▸ hmSrc, e7 ▸ e6 ▸ e5 ▸ e4 ▸ hmSink⟩

set_option maxHeartbeats 1000000 in
theorem buildInv_processRow (ds : Dataset) {g : Graph} (hg : BuildInv g)
    (i : ℕ) (r : Row) (s : String) : BuildInv (processRow ds g i r s) := by
  obtain ⟨hinv, hsrc, hsink⟩ := hg
  cases htv : r.timeV with
  | none => simpa [processRow, htv] using ⟨hinv, hsrc, hsink⟩
  | some t =>
    cases htm : r.tempV with
    | none => simpa [processRow, htv, htm] using ⟨hinv, hsrc, hsink⟩
    | some tmp =>
      simp only [processRow, htv, htm]
      by_cases hs : g.hasNodeId (.steel s) = true
      · simp only [hs, if_true]
        exact buildInv_rowTail hinv hsrc hsink (hasNodeId_iff.mp hs) t tmp i r.hardV
      · simp only [hs, if_false, Bool.false_eq_true]
        have hap : GraphInv
            (⟨g.nodes ++ [(NodeId.steel s, NData.steelD s (stripLower s)
              (steelCompAttrs ds s))], g.edges⟩ : Graph) :=
          graphInv_appendNode hinv ⟨stripLower s, steelCompAttrs ds s, rfl⟩
        have hg1 : GraphInv (Graph.addEdge ⟨g.nodes ++ [(NodeId.steel s,
            NData.steelD s (stripLower s) (steelCompAttrs ds s))], g.edges⟩
            .source (.steel s) .noAttr) := by
          refine graphInv_addEdge hap rfl (by simp [layerOfId]) ?_ ?_
          · obtain ⟨d, hd⟩ := hsrc
            exact ⟨d, List.mem_append_left _ hd⟩
          · exact ⟨NData.steelD s (stripLower s) (steelCompAttrs ds s),
              List.mem_append_right _ (by simp)⟩
        have eN := addEdge_nodes ⟨g.nodes ++ [(NodeId.steel s,
          NData.steelD s (stripLower s) (steelCompAttrs ds s))], g.edges⟩
          .source (.steel s) .noAttr
        refine buildInv_rowTail hg1 ?_ ?_ ?_ t tmp i r.hardV
        · obtain ⟨d, hd⟩ := hsrc
          exact ⟨d, by rw [eN]; exact List.mem_append_left _ hd⟩
        · obtain ⟨d, hd⟩ := hsink
          exact ⟨d, by rw [eN]; exact List.mem_append_left _ hd⟩
        · exact ⟨NData.steelD s (stripLower s) (steelCompAttrs ds s),
            by rw [eN]; exact List.mem_append_right _ (by simp)⟩

theorem buildInv_aux (ds : Dataset) :
    ∀ (l : List (ℕ × Row)) (g g' : Graph), BuildInv g →
      buildGraphAux ds l g = .ok g' → BuildInv g' := by
  intro l
  induction l with
  | nil =>
    intro g g' hg h
    rw [buildGraphAux] at h
    injection h with h
    exact h ▸ hg
  | cons p l ih =>
    intro g g' hg h
    match p with
    | (i, r) =>
      rw [buildGraphAux] at h
      cases hst : r.steel with
      | none => rw [hst] at h; exact absurd h (by simp)
      | some s =>
        rw [hst] at h
        exact ih _ _ (buildInv_processRow ds hg i r s) h

theorem buildInv_emptyMaster : BuildInv emptyMaster := by
  refine ⟨⟨?_, ?_⟩, ⟨NData.layerMark 0, by simp [emptyMaster]⟩,
    ⟨NData.layerMark 5, by simp [emptyMaster]⟩⟩
  · intro e he
    simp [emptyMaster] at he
  · intro p hp
    simp only [emptyMaster, List.mem_cons, List.mem_singleton, List.not_mem_nil,
      or_false] at hp
    rcases hp with h | h <;> subst h <;> rfl

theorem buildInv_of_build {ds : Dataset} {g : Graph} (h : buildGraph ds = .ok g) :
    BuildInv g :=
  buildInv_aux ds _ _ _ buildInv_emptyMaster h

theorem buildInv_of_state {lg : ℚ → ℚ} {ds : Dataset} {st : SteelState}
    (h : buildState lg ds = .ok st) : BuildInv st.graph := by
  rw [buildState] at h
  cases hb : buildGraph ds with
  | error e => rw [hb] at h; exact absurd h (by simp)
  | ok g =>
    rw [hb] at h
    injection h with h
    subst h
    exact buildInv_of_build hb

/-! ### Transport of the invariant through pruning -/

theorem removeNodesWhere_nodes {g : Graph} {bad : NData → Bool} {p : NodeId × NData} :
    p ∈ (removeNodesWhere g bad).nodes ↔ p ∈ g.nodes ∧ bad p.2 = false := by
  unfold removeNodesWhere
  simp [List.mem_filter]

theorem removeNodesWhere_edges_sub {g : Graph} {bad : NData → Bool} {e : GEdge}
    (h : e ∈ (removeNodesWhere g bad).edges) : e ∈ g.edges := by
  unfold removeNodesWhere at h
  simp only [List.mem_filter] at h
  exact h.1

theorem removeNodesWhere_edges_endpoints {g : Graph} {bad : NData → Bool} {e : GEdge}
    (h : e ∈ (removeNodesWhere g bad).edges) :
    (∃ d, (e.src, d) ∈ (removeNodesWhere g bad).nodes) ∧
      (∃ d, (e.dst, d) ∈ (removeNodesWhere g bad).nodes) := by
  unfold removeNodesWhere at h
  simp only [List.mem_filter, Bool.and_eq_true, List.any_eq_true] at h
  obtain ⟨-, ⟨ps, hps, hs⟩, ⟨pd, hpd, hd⟩⟩ := h
  have hs2 : ps.1 = e.src := by simpa using hs
  have hd2 : pd.1 = e.dst := by simpa using hd
  constructor
  · refine ⟨ps.2, removeNodesWhere_nodes.mpr ⟨?_, by simpa using hps.2⟩⟩
    rw [← hs2]
    exact hps.1
  · refine ⟨pd.2, removeNodesWhere_nodes.mpr ⟨?_, by simpa using hpd.2⟩⟩
    rw [← hd2]
    exact hpd.1

theorem graphInv_removeNodesWhere {g : Graph} {bad : NData → Bool} (hg : GraphInv g) :
    GraphInv (removeNodesWhere g bad) := by
  constructor
  · intro e he
    obtain ⟨h1, h2, -, -⟩ := hg.1 e (removeNodesWhere_edges_sub he)
    obtain ⟨hsrc, hdst⟩ := removeNodesWhere_edges_endpoints he
    exact ⟨h1, h2, hsrc, hdst⟩
  · intro p hp
    exact hg.2 p (removeNodesWhere_nodes.mp hp).1

theorem pruneStep3_eq {g2 sub : Graph} (h : pruneStep3 g2 = some sub) :
    pruneTargets g2 ≠ [] ∧
    sub = ⟨pruneKeep g2, g2.edges.filter fun e =>
      ((pruneKeep g2).any fun p => p.1 = e.src) &&
      ((pruneKeep g2).any fun p => p.1 = e.dst)⟩ := by
  unfold pruneStep3 at h
  by_cases he : (pruneTargets g2).isEmpty = true
  · rw [if_pos he] at h
    exact absurd h (by simp)
  · rw [if_neg he] at h
    injection h with h
    exact ⟨by simpa [List.isEmpty_iff] using he, h.symm⟩

theorem pruneStep3_nodes {g2 sub : Graph} (h : pruneStep3 g2 = some sub) {p : NodeId × NData} :
    p ∈ sub.nodes ↔ p ∈ g2.nodes ∧ (pruneValidList g2).contains p.1 = true := by
  rw [(pruneStep3_eq h).2]
  simp [pruneKeep, List.mem_filter]

theorem pruneStep3_edges {g2 sub : Graph} (h : pruneStep3 g2 = some sub) {e : GEdge}
    (he : e ∈ sub.edges) :
    e ∈ g2.edges ∧ (∃ d, (e.src, d) ∈ sub.nodes) ∧ (∃ d, (e.dst, d) ∈ sub.nodes) := by
  obtain ⟨-, hs⟩ := pruneStep3_eq h
  rw [hs] at he
  simp only [List.mem_filter, Bool.and_eq_true, List.any_eq_true] at he
  obtain ⟨h1, ⟨ps, hps, hs2⟩, ⟨pd, hpd, hd2⟩⟩ := he
  have hs3 : ps.1 = e.src := by simpa using hs2
  have hd3 : pd.1 = e.dst := by simpa using hd2
  refine ⟨h1, ⟨ps.2, ?_⟩, ⟨pd.2, ?_⟩⟩
  · rw [hs, ← hs3]
    simpa [pruneKeep] using hps
  · rw [hs, ← hd3]
    simpa [pruneKeep] using hpd

theorem graphInv_pruneStep3 {g2 sub : Graph} (hg : GraphInv g2)
    (h : pruneStep3 g2 = some sub) : GraphInv sub := by
  constructor
  · intro e he
    obtain ⟨h1, hsrc, hdst⟩ := pruneStep3_edges h he
    obtain ⟨ha, hl, -, -⟩ := hg.1 e h1
    exact ⟨ha, hl, hsrc, hdst⟩
  · intro p hp
    exact hg.2 p ((pruneStep3_nodes h).mp hp).1

theorem pruneGraph_eq (st : SteelState) (fs : List (String × FVal)) :
    pruneGraph st fs =
      pruneStep3 (pruneStep2 (normalizedFilters fs)
        (pruneStep1 st.compCols (normalizedFilters fs) st.graph)) := rfl

theorem graphInv_pruneGraph {st : SteelState} {fs : List (String × FVal)} {sub : Graph}
    (hg : GraphInv st.graph) (h : pruneGraph st fs = some sub) : GraphInv sub := by
  rw [pruneGraph_eq] at h
  exact graphInv_pruneStep3
    (graphInv_removeNodesWhere (graphInv_removeNodesWhere hg)) h

theorem pruneGraph_nodes_sub {st : SteelState} {fs : List (String × FVal)} {sub : Graph}
    (h : pruneGraph st fs = some sub) {p : NodeId × NData} (hp : p ∈ sub.nodes) :
    p ∈ st.graph.nodes := by
  rw [pruneGraph_eq] at h
  exact (removeNodesWhere_nodes.mp
    ((removeNodesWhere_nodes.mp ((pruneStep3_nodes h).mp hp).1).1)).1

theorem pruneGraph_edges_sub {st : SteelState} {fs : List (String × FVal)} {sub : Graph}
    (h : pruneGraph st fs = some sub) {e : GEdge} (he : e ∈ sub.edges) :
    e ∈ st.graph.edges := by
  rw [pruneGraph_eq] at h
  exact removeNodesWhere_edges_sub (removeNodesWhere_edges_sub (pruneStep3_edges h he).1)

/-! ### C6: the weight rule -/

theorem weightedOf_edges_mem {lg : ℚ → ℚ} {st : SteelState} {mode : String} {alpha : ℚ}
    {sub : Graph} {we : WEdge} (h : we ∈ (weightedOf lg st mode alpha sub).edges) :
    ∃ e ∈ sub.edges, we = ⟨e.src, e.dst, e.attr, weightOf lg st mode alpha e.attr⟩ := by
  unfold weightedOf at h
  simp only [List.mem_bind, List.mem_map] at h
  obtain ⟨p, -, e, he, hwe⟩ := h
  rw [mem_sortByB, List.mem_filter] at he
  exact ⟨e, he.1, hwe.symm⟩

/-- C6: the weight assigned to every edge of the weighted pruned subgraph
follows the mode rule.  On a state built from a dataset (so that edge
attributes match edge endpoints) whose retained `max_time` is at least 1
and has positive logarithm (so that the stored `log_max_time` is the
logarithm of the dataset maximum), a Steel→Time edge with time value `t`
weighs `t` in mode `time`, `alpha * (ln (max t 1) / ln maxTime)` in mode
`balanced` and 0 otherwise; a Time→Temperature edge with temperature `v`
weighs `v` in mode `temperature`, `(1 - alpha) * (v / maxTemp)` in mode
`balanced` and 0 otherwise; and every other edge (Source→Steel,
Temperature→Hardness, Hardness→Sink) always weighs 0. -/
theorem c6_weight_rule {lg : ℚ → ℚ} {ds : Dataset} {st : SteelState}
    (hb : buildState lg ds = .ok st) {fs : List (String × FVal)} {sub : Graph}
    (hp : pruneGraph st fs = some sub) (mode : String) (alpha : ℚ)
    (hmt : 1 ≤ st.maxTime) (hlg : 0 < lg st.maxTime) :
    ∀ we ∈ (weightedOf lg st mode alpha sub).edges,
      match we.src, we.dst with
      | .steel _, .time t _ =>
        we.weight = if mode = "time" then t
          else if mode = "balanced" then alpha * (lg (max t 1) / lg st.maxTime) else 0
      | .time _ _, .temp v _ =>
        we.weight = if mode = "temperature" then v
          else if mode = "balanced" then (1 - alpha) * (v / st.maxTemp) else 0
      | _, _ => we.weight = 0 := by
  have hlmt : st.logMaxTime = lg st.maxTime := by
    rw [buildState] at hb
    cases hbg : buildGraph ds with
    | error e => rw [hbg] at hb; exact absurd hb (by simp)
    | ok g =>
      rw [hbg] at hb
      injection hb with hb
      subst hb
      simp only [dsLogMaxTime, qMax_eq]
      rw [max_eq_left hmt]
      rw [if_neg (not_le.mpr hlg)]
  have hattr : ∀ e ∈ sub.edges, edgeAttrOk e := by
    intro e he
    exact ((buildInv_of_state hb).1.1 e (pruneGraph_edges_sub hp he)).1
  intro we hwe
  obtain ⟨e, he, hwe2⟩ := weightedOf_edges_mem hwe
  subst hwe2
  have hok := hattr e he
  unfold edgeAttrOk at hok
  cases hsrc : e.src with
  | steel sname =>
    cases hdst : e.dst with
    | time t i =>
      rw [hsrc, hdst] at hok
      simp only [hsrc, hdst]
      rw [hok]
      unfold weightOf
      by_cases h1 : mode = "time"
      · simp [h1]
      · by_cases h2 : mode = "balanced"
        · simp only [h1, if_false, h2, if_true]
          rw [qMul_eq, qDiv_eq, qMax_eq, hlmt]
        · simp [h1, h2]
    | source => rw [hsrc, hdst] at hok; simp only [hsrc, hdst]; rw [hok]; simp [weightOf]
    | sink => rw [hsrc, hdst] at hok; simp only [hsrc, hdst]; rw [hok]; simp [weightOf]
    | steel s2 => rw [hsrc, hdst] at hok; simp only [hsrc, hdst]; rw [hok]; simp [weightOf]
    | temp v j => rw [hsrc, hdst] at hok; simp only [hsrc, hdst]; rw [hok]; simp [weightOf]
    | hard v => rw [hsrc, hdst] at hok; simp only [hsrc, hdst]; rw [hok]; simp [weightOf]
  | time tv i =>
    cases hdst : e.dst with
    | temp v j =>
      rw [hsrc, hdst] at hok
      simp only [hsrc, hdst]
      rw [hok]
      unfold weightOf
      by_cases h1 : mode = "temperature"
      · simp [h1]
      · by_cases h2 : mode = "balanced"
        · have h3 : ¬mode = "time" := by
            intro hx
            rw [hx] at h2
            exact absurd h2 (by decide)
          simp only [h1, h3, if_false, h2, if_true]
          rw [qMul_eq, qSub_eq, qDiv_eq]
        · have h3 : ¬mode = "time" ∨ True := Or.inr trivial
          simp [h1, h2, weightOf]
    | source => rw [hsrc, hdst] at hok; simp only [hsrc, hdst]; rw [hok]; simp [weightOf]
    | sink => rw [hsrc, hdst] at hok; simp only [hsrc, hdst]; rw [hok]; simp [weightOf]
    | steel s2 => rw [hsrc, hdst] at hok; simp only [hsrc, hdst]; rw [hok]; simp [weightOf]
    | time t2 j => rw [hsrc, hdst] at hok; simp only [hsrc, hdst]; rw [hok]; simp [weightOf]
    | hard v => rw [hsrc, hdst] at hok; simp only [hsrc, hdst]; rw [hok]; simp [weightOf]
  | source =>
    rw [hsrc] at hok
    simp only [hsrc]
    cases hdst : e.dst <;> rw [hdst] at hok <;> rw [hok] <;> simp [weightOf]
  | sink =>
    rw [hsrc] at hok
    simp only [hsrc]
    cases hdst : e.dst <;> rw [hdst] at hok <;> rw [hok] <;> simp [weightOf]
  | temp v j =>
    rw [hsrc] at hok
    simp only [hsrc]
    cases hdst : e.dst <;> rw [hdst] at hok <;> rw [hok] <;> simp [weightOf]
  | hard v =>
    rw [hsrc] at hok
    simp only [hsrc]
    cases hdst : e.dst <;> rw [hdst] at hok <;> rw [hok] <;> simp [weightOf]

/-- Witness for C6: on the Scenario dataset with the identity probe as
logarithm, the Steel→Time edge `SteelX → t=10` of the unfiltered pruned
graph in mode `time` carries the weight the rule names. -/
theorem c6_weight_rule_witness :
    1 ≤ stScen.maxTime ∧ 0 < probeLog stScen.maxTime ∧
    ((⟨.steel "SteelX", .time (mkRat 10 1) 0, .timeA (mkRat 10 1), mkRat 10 1⟩ : WEdge).weight =
      if "time" = "time" then (mkRat 10 1 : ℚ)
      else if "time" = "balanced" then
        (mkRat 1 2) * (probeLog (max (mkRat 10 1) 1) / probeLog stScen.maxTime)
      else 0) :=
  ⟨by decide, by decide,
    c6_weight_rule (rfl : buildState probeLog dsScen = Except.ok stScen)
      (rfl : pruneGraph stScen [] = some (getSub (pruneGraph stScen [])))
      "time" (mkRat 1 2) (by decide) (by decide)
      ⟨.steel "SteelX", .time (mkRat 10 1) 0, .timeA (mkRat 10 1), mkRat 10 1⟩ (by decide)⟩

/-! ### C5: the pruning subset invariant -/

theorem any_false_all {α : Type} {p : α → Bool} {l : List α} (h : l.any p = false) :
    ∀ x ∈ l, p x = false := by
  simp only [List.any_eq_false] at h
  intro x hx
  simpa using h x hx

theorem prune_survivors {st : SteelState} {fs : List (String × FVal)} {sub : Graph}
    (hp : pruneGraph st fs = some sub) {p : NodeId × NData} (hmem : p ∈ sub.nodes) :
    removeSteelNode st.compCols (normalizedFilters fs) p.2 = false ∧
      removeRangeNode (normalizedFilters fs) p.2 = false := by
  rw [pruneGraph_eq] at hp
  have h2 := ((pruneStep3_nodes hp).mp hmem).1
  unfold pruneStep2 at h2
  rw [removeNodesWhere_nodes] at h2
  obtain ⟨h3, hr⟩ := h2
  unfold pruneStep1 at h3
  rw [removeNodesWhere_nodes] at h3
  exact ⟨h3.2, hr⟩

/-- C5: every node of the pruned subgraph satisfies the filter predicates
its type implies.  For every state and every filter mapping, in a pruned
subgraph: a surviving Steel node matches a present `steel_type` filter
case-insensitively and passes every composition filter whose normalized
key is a composition column (a missing or NaN composition attribute never
survives such a filter); and a surviving Time/Temperature/Hardness node
carries a value inside the inclusive `[min, max]` of the corresponding
range filter whenever that filter is present and well-formed. -/
theorem c5_subset_invariant (st : SteelState) (fs : List (String × FVal)) (sub : Graph)
    (hp : pruneGraph st fs = some sub) :
    ∀ p ∈ sub.nodes,
      (∀ sT stN comp, p.2 = NData.steelD sT stN comp →
        (∀ fv, (normalizedFilters fs).lookup "steel_type" = some fv →
          stripLower stN = stripLower (fvalStr fv)) ∧
        (∀ k op v, (k, FVal.compV op v) ∈ normalizedFilters fs → k ≠ "steel_type" →
          k ∈ dfCompKeys st.compCols →
          ∃ a, comp.lookup k = some (some a) ∧ applyOp op a v = true)) ∧
      (∀ v, p.2 = NData.timeD v →
        ∀ lo hi, (normalizedFilters fs).lookup "time_range" = some (FVal.rangeV lo hi) →
          lo ≤ v ∧ v ≤ hi) ∧
      (∀ v, p.2 = NData.tempD v →
        ∀ lo hi, (normalizedFilters fs).lookup "temperature_range" = some (FVal.rangeV lo hi) →
          lo ≤ v ∧ v ≤ hi) ∧
      (∀ ov, p.2 = NData.hardD ov →
        ∀ lo hi, (normalizedFilters fs).lookup "hardness_range" = some (FVal.rangeV lo hi) →
          ∃ v, ov = some v ∧ lo ≤ v ∧ v ≤ hi) := by
  intro p hmem
  obtain ⟨hsteel, hrange⟩ := prune_survivors hp hmem
  refine ⟨?_, ?_, ?_, ?_⟩
  · intro sT stN comp hk
    rw [hk] at hsteel
    unfold removeSteelNode at hsteel
    have hall := any_false_all hsteel
    constructor
    · intro fv hlk
      have hfail := hall _ (lookup_mem hlk)
      unfold steelEntryFails at hfail
      rw [if_pos rfl] at hfail
      simp only [Bool.not_eq_false'] at hfail
      simpa using hfail
    · intro k op v hmem2 hne hcomp
      have hfail := hall _ hmem2
      unfold steelEntryFails at hfail
      rw [if_neg hne] at hfail
      rw [if_pos (List.elem_eq_true_of_mem hcomp)] at hfail
      cases hl : comp.lookup k with
      | none => rw [hl] at hfail; exact absurd hfail (by simp)
      | some o =>
        cases o with
        | none => rw [hl] at hfail; exact absurd hfail (by simp)
        | some a =>
          rw [hl] at hfail
          simp only [Bool.not_eq_false'] at hfail
          exact ⟨a, rfl, hfail⟩
  · intro v hk
    rw [hk] at hrange
    unfold removeRangeNode at hrange
    intro lo hi hlk
    rw [hlk] at hrange
    unfold outOfRange at hrange
    simp only [Bool.not_eq_false', Bool.and_eq_true, decide_eq_true_eq] at hrange
    exact hrange
  · intro v hk
    rw [hk] at hrange
    unfold removeRangeNode at hrange
    intro lo hi hlk
    rw [hlk] at hrange
    unfold outOfRange at hrange
    simp only [Bool.not_eq_false', Bool.and_eq_true, decide_eq_true_eq] at hrange
    exact hrange
  · intro ov hk
    rw [hk] at hrange
    unfold removeRangeNode at hrange
    intro lo hi hlk
    rw [hlk] at hrange
    unfold outOfRange at hrange
    cases ov with
    | none => exact absurd hrange (by simp)
    | some x =>
      simp only [Bool.not_eq_false', Bool.and_eq_true, decide_eq_true_eq] at hrange
      exact ⟨x, rfl, hrange⟩

/-- Witness for C5: prune the Scenario dataset with a case-insensitive
steel-type filter `"steelx"` plus a hardness range; the surviving SteelX
node matches the filter. -/
theorem c5_subset_invariant_witness :
    stripLower (stripLower "SteelX") = stripLower (fvalStr (FVal.strV "steelx")) :=
  ((c5_subset_invariant stScen
      [("steel_type", FVal.strV "steelx"),
       ("hardness_range", FVal.rangeV (mkRat 45 1) (mkRat 55 1))]
      (getSub (pruneGraph stScen
        [("steel_type", FVal.strV "steelx"),
         ("hardness_range", FVal.rangeV (mkRat 45 1) (mkRat 55 1))]))
      rfl
      (NodeId.steel "SteelX",
        NData.steelD "SteelX" (stripLower "SteelX") (steelCompAttrs dsScen "SteelX"))
      (by decide)).1 "SteelX" (stripLower "SteelX") (steelCompAttrs dsScen "SteelX")
      rfl).1 (FVal.strV "steelx") (by decide)

/-! ### C10: unrecognized filter entries are ignored -/

theorem normalizedFilters_append (fs : List (String × FVal)) (k : String) (v : FVal) :
    normalizedFilters (fs ++ [(k, v)]) =
      pyDictInsert (normalizedFilters fs) (normalizeKey k) v := by
  unfold normalizedFilters
  rw [List.foldl_append]
  rfl

theorem contains_eq_false_of_not_mem {l : List String} {k : String} (h : k ∉ l) :
    l.contains k = false := by
  cases hc : l.contains k
  · rfl
  · exact absurd (List.mem_of_elem_eq_true hc) h

theorem lookup_map_update {α : Type} (l : List (String × α)) (k : String) (v : α)
    (s : String) (hne : s ≠ k) :
    (l.map fun p => if p.1 = k then (k, v) else p).lookup s = l.lookup s := by
  induction l with
  | nil => rfl
  | cons p l ih =>
    simp only [List.map_cons]
    by_cases hp : p.1 = k
    · rw [if_pos hp]
      show (List.lookup s ((k, v) :: _)) = List.lookup s (p :: l)
      rw [List.lookup, List.lookup]
      have h1 : (s == k) = false := by simpa using hne
      have h2 : (s == p.1) = false := by simpa [hp] using hne
      rw [h1, h2]
      · exact ih
    · rw [if_neg hp]
      rw [List.lookup, List.lookup]
      cases hs : s == p.1
      · exact ih
      · rfl

theorem lookup_append_single {α : Type} (l : List (String × α)) (k : String) (v : α)
    (s : String) (hne : s ≠ k) : (l ++ [(k, v)]).lookup s = l.lookup s := by
  induction l with
  | nil =>
    show List.lookup s [(k, v)] = none
    rw [List.lookup]
    have h1 : (s == k) = false := by simpa using hne
    rw [h1]
    rfl
  | cons p l ih =>
    show List.lookup s (p :: (l ++ [(k, v)])) = List.lookup s (p :: l)
    rw [List.lookup, List.lookup]
    cases hs : s == p.1
    · exact ih
    · rfl

theorem pyDictInsert_lookup_ne {α : Type} (l : List (String × α)) (k : String) (v : α)
    (s : String) (hne : s ≠ k) : (pyDictInsert l k v).lookup s = l.lookup s := by
  unfold pyDictInsert
  split
  · exact lookup_map_update l k v s hne
  · exact lookup_append_single l k v s hne

theorem any_map_update {α : Type} (l : List (String × α)) (k : String) (v : α)
    (f : String × α → Bool) (hk : ∀ w, f (k, w) = false) :
    (l.map fun p => if p.1 = k then (k, v) else p).any f = l.any f := by
  induction l with
  | nil => rfl
  | cons p l ih =>
    simp only [List.map_cons, List.any_cons, ih]
    by_cases hp : p.1 = k
    · have h1 : f p = false := by
        have hpe : p = (k, p.2) := Prod.ext hp rfl
        rw [hpe]
        exact hk p.2
      rw [if_pos hp, hk v, h1]
    · rw [if_neg hp]

theorem any_append_single {α : Type} (l : List (String × α)) (k : String) (v : α)
    (f : String × α → Bool) (hk : f (k, v) = false) :
    (l ++ [(k, v)]).any f = l.any f := by
  rw [List.any_append]
  simp [hk]

theorem pyDictInsert_any {α : Type} (l : List (String × α)) (k : String) (v : α)
    (f : String × α → Bool) (hk : ∀ w, f (k, w) = false) :
    (pyDictInsert l k v).any f = l.any f := by
  unfold pyDictInsert
  split
  · exact any_map_update l k v f hk
  · exact any_append_single l k v f (hk v)

theorem removeNodesWhere_congr {g : Graph} {b1 b2 : NData → Bool} (h : ∀ d, b1 d = b2 d) :
    removeNodesWhere g b1 = removeNodesWhere g b2 := by
  unfold removeNodesWhere
  have he : (fun p : NodeId × NData => !(b1 p.2)) = fun p => !(b2 p.2) :=
    funext fun p => by rw [h]
  rw [he]

theorem removeSteel_ignore (cc : List String) (nf : List (String × FVal)) (K : String)
    (v : FVal) (hne : K ≠ "steel_type") (hnc : K ∉ dfCompKeys cc) (d : NData) :
    removeSteelNode cc (pyDictInsert nf K v) d = removeSteelNode cc nf d := by
  have hcf := contains_eq_false_of_not_mem hnc
  cases d with
  | steelD sT stN comp =>
    unfold removeSteelNode
    apply pyDictInsert_any
    intro w
    unfold steelEntryFails
    rw [if_neg hne, if_neg (by intro hcond; rw [hcf] at hcond; exact absurd hcond (by simp))]
  | layerMark l => rfl
  | timeD t => rfl
  | tempD t => rfl
  | hardD h => rfl

theorem removeRange_ignore (nf : List (String × FVal)) (K : String) (v : FVal)
    (h1 : K ≠ "time_range") (h2 : K ≠ "temperature_range") (h3 : K ≠ "hardness_range")
    (d : NData) :
    removeRangeNode (pyDictInsert nf K v) d = removeRangeNode nf d := by
  cases d with
  | steelD sT stN comp => rfl
  | layerMark l => rfl
  | timeD t =>
    unfold removeRangeNode
    rw [pyDictInsert_lookup_ne _ _ _ _ (Ne.symm h1)]
  | tempD t =>
    unfold removeRangeNode
    rw [pyDictInsert_lookup_ne _ _ _ _ (Ne.symm h2)]
  | hardD h =>
    unfold removeRangeNode
    rw [pyDictInsert_lookup_ne _ _ _ _ (Ne.symm h3)]

/-- C10: a filter entry whose normalized key matches no composition column
of the loaded dataset and is none of the recognized special keys is
ignored entirely: pruning with it appended equals pruning without it — no
Steel node is removed because of it — and the whole query result is
unchanged, for every mode and alpha. -/
theorem c10_unrecognized_filter_ignored (st : SteelState) (fs : List (String × FVal))
    (k : String) (v : FVal)
    (hs : normalizeKey k ∉ ["time_range", "temperature_range", "hardness_range", "steel_type"])
    (hc : normalizeKey k ∉ dfCompKeys st.compCols) :
    pruneGraph st (fs ++ [(k, v)]) = pruneGraph st fs ∧
    ∀ lg mode alpha,
      fbpCore lg st (fs ++ [(k, v)]) mode alpha = fbpCore lg st fs mode alpha := by
  have h1 : normalizeKey k ≠ "time_range" := fun h => hs (by rw [h]; simp)
  have h2 : normalizeKey k ≠ "temperature_range" := fun h => hs (by rw [h]; simp)
  have h3 : normalizeKey k ≠ "hardness_range" := fun h => hs (by rw [h]; simp)
  have h4 : normalizeKey k ≠ "steel_type" := fun h => hs (by rw [h]; simp)
  have hpr : pruneGraph st (fs ++ [(k, v)]) = pruneGraph st fs := by
    rw [pruneGraph_eq, pruneGraph_eq, normalizedFilters_append]
    have e1 : pruneStep1 st.compCols (pyDictInsert (normalizedFilters fs) (normalizeKey k) v)
        st.graph = pruneStep1 st.compCols (normalizedFilters fs) st.graph := by
      unfold pruneStep1
      exact removeNodesWhere_congr
        (removeSteel_ignore st.compCols (normalizedFilters fs) (normalizeKey k) v h4 hc)
    rw [e1]
    unfold pruneStep2
    exact congrArg _ (removeNodesWhere_congr
      (removeRange_ignore (normalizedFilters fs) (normalizeKey k) v h1 h2 h3))
  refine ⟨hpr, ?_⟩
  intro lg mode alpha
  unfold fbpCore
  rw [hpr]

/-- Witness for C10: the key `"Mn"` (normalized `"mn"`) is not a
composition column of the Scenario dataset and not special, so appending a
composition filter on it leaves the query untouched. -/
theorem c10_unrecognized_filter_ignored_witness :
    pruneGraph stScen
        [("hardness_range", FVal.rangeV (mkRat 45 1) (mkRat 55 1)),
         ("Mn", FVal.compV .gtOp (mkRat 1 2))] =
      pruneGraph stScen [("hardness_range", FVal.rangeV (mkRat 45 1) (mkRat 55 1))] :=
  (c10_unrecognized_filter_ignored stScen
    [("hardness_range", FVal.rangeV (mkRat 45 1) (mkRat 55 1))]
    "Mn" (FVal.compV .gtOp (mkRat 1 2)) (by decide) (by decide)).1

/-! ### C4: which records construction skips, and when it fails -/

theorem addNode_mem_cases {g : Graph} {n : NodeId} {d : NData} {p : NodeId × NData}
    (h : p ∈ (g.addNode n d).nodes) : p ∈ g.nodes ∨ p = (n, d) := by
  unfold Graph.addNode at h
  split at h
  · exact Or.inl h
  · rcases List.mem_append.mp h with h2 | h2
    · exact Or.inl h2
    · simp only [List.mem_singleton] at h2
      exact Or.inr h2

theorem processRow_mem_cases {ds : Dataset} {g : Graph} {i : ℕ} {r : Row} {s : String}
    {p : NodeId × NData} (h : p ∈ (processRow ds g i r s).nodes) :
    p ∈ g.nodes ∨ p.1 = .steel s ∨ (∃ tv, p.1 = .time tv i) ∨ (∃ tv, p.1 = .temp tv i) ∨
      (∃ hv, p.1 = .hard hv) := by
  cases htv : r.timeV with
  | none =>
    rw [processRow, htv] at h
    exact Or.inl h
  | some t =>
    cases htm : r.tempV with
    | none =>
      rw [processRow, htv, htm] at h
      exact Or.inl h
    | some tmp =>
      rw [processRow, htv, htm] at h
      simp only [addEdge_nodes] at h
      rcases addNode_mem_cases h with h2 | h2
      · rcases addNode_mem_cases h2 with h3 | h3
        · rcases addNode_mem_cases h3 with h4 | h4
          · by_cases hs : g.hasNodeId (.steel s) = true
            · rw [if_pos hs] at h4
              exact Or.inl h4
            · rw [if_neg hs] at h4
              simp only [addEdge_nodes] at h4
              rcases List.mem_append.mp h4 with h5 | h5
              · exact Or.inl h5
              · simp only [List.mem_singleton] at h5
                exact Or.inr (Or.inl (by rw [h5]))
          · exact Or.inr (Or.inr (Or.inl ⟨t, by rw [h4]⟩))
        · exact Or.inr (Or.inr (Or.inr (Or.inl ⟨tmp, by rw [h3]⟩)))
      · exact Or.inr (Or.inr (Or.inr (Or.inr ⟨r.hardV, by rw [h2]⟩)))

theorem buildAux_row_free (ds : Dataset) (j : ℕ) :
    ∀ (l : List (ℕ × Row)) (g g' : Graph), buildGraphAux ds l g = .ok g' →
      (∀ q ∈ l, q.1 ≠ j) →
      (∀ tv (d : NData), (NodeId.time tv j, d) ∉ g.nodes ∧ (NodeId.temp tv j, d) ∉ g.nodes) →
      ∀ tv (d : NData), (NodeId.time tv j, d) ∉ g'.nodes ∧ (NodeId.temp tv j, d) ∉ g'.nodes := by
  intro l
  induction l with
  | nil =>
    intro g g' h hne hfree
    rw [buildGraphAux] at h
    injection h with h
    exact h ▸ hfree
  | cons q l ih =>
    intro g g' h hne hfree
    match q with
    | (i, r) =>
      rw [buildGraphAux] at h
      cases hst : r.steel with
      | none => rw [hst] at h; exact absurd h (by simp)
      | some s =>
        rw [hst] at h
        refine ih _ _ h (fun q2 hq2 => hne q2 (List.mem_cons_of_mem _ hq2)) ?_
        intro tv d
        have hij : i ≠ j := hne (i, r) (List.mem_cons_self _ _)
        constructor
        · intro hmem
          rcases processRow_mem_cases hmem with h2 | h2 | h2 | h2 | h2
          · exact (hfree tv d).1 h2
          · exact absurd h2 (by simp)
          · obtain ⟨tv2, htv2⟩ := h2
            exact hij (by injection htv2 with _ hinj; exact hinj.symm)
          · obtain ⟨tv2, htv2⟩ := h2
            exact absurd htv2 (by simp)
          · obtain ⟨hv, hhv⟩ := h2
            exact absurd hhv (by simp)
        · intro hmem
          rcases processRow_mem_cases hmem with h2 | h2 | h2 | h2 | h2
          · exact (hfree tv d).2 h2
          · exact absurd h2 (by simp)
          · obtain ⟨tv2, htv2⟩ := h2
            exact absurd htv2 (by simp)
          · obtain ⟨tv2, htv2⟩ := h2
            exact hij (by injection htv2 with _ hinj; exact hinj.symm)
          · obtain ⟨hv, hhv⟩ := h2
            exact absurd hhv (by simp)

/-- C4 (amended): `dropna(subset=[time, temperature])` governs skipping.
(1) A record missing its time or temperature contributes no nodes: no
time or temperature node of the built master graph carries that record's
row id.  (2) Construction succeeds whenever every surviving record has a
steel identifier — in particular a record missing only its hardness is
kept (its NaN hardness becomes a value-less hardness node), and a dataset
whose records are all dropped still builds successfully.  (3) With no
surviving records the result is the two-marker graph (SOURCE and SINK
only): zero Steel nodes is not a construction failure. -/
theorem c4_amended :
    (∀ (ds : Dataset) (g : Graph) (i : ℕ) (r : Row), buildGraph ds = .ok g →
      (i, r) ∈ ds.rows.enum → (r.timeV = none ∨ r.tempV = none) →
      ∀ tv (d : NData),
        (NodeId.time tv i, d) ∉ g.nodes ∧ (NodeId.temp tv i, d) ∉ g.nodes) ∧
    (∀ ds : Dataset, (∀ q ∈ validIdxRows ds, q.2.steel ≠ none) →
      ∃ g, buildGraph ds = .ok g) ∧
    (∀ ds : Dataset, validIdxRows ds = [] → buildGraph ds = .ok emptyMaster) := by
  refine ⟨?_, ?_, ?_⟩
  · intro ds g i r hb henum hinvalid tv d
    have hnej : ∀ q ∈ validIdxRows ds, q.1 ≠ i := by
      intro q hq hqi
      have hq2 : q ∈ ds.rows.enum := List.mem_of_mem_filter hq
      have hpred := List.of_mem_filter hq
      have hget : ds.rows.get? q.1 = some q.2 := by
        have : (q.1, q.2) ∈ ds.rows.enum := by simpa using hq2
        exact List.mk_mem_enum_iff_get?.mp this
      have hgetr : ds.rows.get? i = some r := List.mk_mem_enum_iff_get?.mp henum
      rw [hqi] at hget
      rw [hget] at hgetr
      injection hgetr with hrr
      rw [hrr] at hpred
      simp only [Bool.and_eq_true, Option.isSome] at hpred
      rcases hinvalid with hx | hx <;> rw [hx] at hpred <;> simp at hpred
    refine buildAux_row_free ds i _ _ _ hb hnej ?_ tv d
    intro tv2 d2
    constructor <;> intro hmem <;> simp [emptyMaster] at hmem
  · intro ds hsteel
    unfold buildGraph
    have : ∀ (l : List (ℕ × Row)) (g : Graph), (∀ q ∈ l, q.2.steel ≠ none) →
        ∃ g', buildGraphAux ds l g = .ok g' := by
      intro l
      induction l with
      | nil => exact fun g _ => ⟨g, rfl⟩
      | cons q l ih =>
        intro g hq
        match q with
        | (i, r) =>
          cases hst : r.steel with
          | none => exact absurd hst (hq (i, r) (List.mem_cons_self _ _))
          | some s =>
            obtain ⟨g', hg'⟩ := ih (processRow ds g i r s)
              (fun q2 hq2 => hq q2 (List.mem_cons_of_mem _ hq2))
            exact ⟨g', by rw [buildGraphAux, hst]; exact hg'⟩
    exact this _ _ hsteel
  · intro ds hval
    unfold buildGraph
    rw [hval]
    rfl

/-- Witness for C4's amended statement: in `dsSkip` the first record
(missing its time) contributes no nodes — row id 0 appears on no time or
temperature node of the built graph. -/
theorem c4_amended_witness :
    (NodeId.time (mkRat 5 1) 0, NData.timeD (mkRat 5 1)) ∉
        (getSt (buildState probeLog dsSkip)).graph.nodes ∧
      (NodeId.temp (mkRat 5 1) 0, NData.timeD (mkRat 5 1)) ∉
        (getSt (buildState probeLog dsSkip)).graph.nodes :=
  c4_amended.1 dsSkip (getSt (buildState probeLog dsSkip)).graph 0
    ⟨some "A", none, some (mkRat 1 1), some (mkRat 2 1), []⟩ rfl (by decide)
    (Or.inl rfl) (mkRat 5 1) (NData.timeD (mkRat 5 1))

/-- Counterexample for C4 as stated: the record of `dsNoHard` is missing
its hardness — a required field — yet it is not skipped: construction
succeeds (no failure despite the claim's "fails when zero Steel nodes
would result" reading) and the record contributes a Steel node and a
NaN-valued Hardness node. -/
theorem c4_counterexample :
    bsOk (buildState probeLog dsNoHard) = true ∧
    (getSt (buildState probeLog dsNoHard)).graph.hasNodeId (.steel "A") = true ∧
    (getSt (buildState probeLog dsNoHard)).graph.hasNodeId (.hard none) = true :=
  ⟨by decide, by decide, by decide⟩

/-! ### C1: the running minimum against the true walk minimum -/

theorem tieTol_pos (c : ℚ) : 0 < tieTol c := by
  rw [tieTol_eq]
  exact lt_max_of_lt_left (by norm_num)

theorem optLeQ_refl (a : Option ℚ) : optLeQ a a := by
  cases a
  · trivial
  · exact le_refl _

theorem optLeQ_trans {a b c : Option ℚ} (h1 : optLeQ a b) (h2 : optLeQ b c) : optLeQ a c := by
  cases a <;> cases b <;> cases c <;> simp [optLeQ] at * <;> try exact le_trans h1 h2

theorem tieStep_min_le (acc : Option ℚ × List NodeId) (t : NodeId) (c : Option ℚ) :
    optLeQ (tieStep acc t c).1 acc.1 := by
  cases c with
  | none => exact optLeQ_refl _
  | some cv =>
    cases hacc : acc.1 with
    | none => rw [tieStep, hacc]; trivial
    | some m =>
      rw [tieStep, hacc]
      dsimp only
      by_cases h1 : cv < qSub m (tieTol cv)
      · rw [if_pos h1]
        show cv ≤ m
        rw [qSub_eq] at h1
        have := tieTol_pos cv
        linarith
      · rw [if_neg h1]
        by_cases h2 : qAbs (qSub cv m) ≤ tieTol cv
        · rw [if_pos h2]
          exact le_refl m
        · rw [if_neg h2, hacc]
          exact le_refl m

theorem scan_min_le (f : NodeId → Option ℚ) :
    ∀ (l : List NodeId) (acc : Option ℚ × List NodeId),
      optLeQ (l.foldl (fun acc t => tieStep acc t (f t)) acc).1 acc.1 := by
  intro l
  induction l with
  | nil => exact fun acc => optLeQ_refl _
  | cons t l ih =>
    intro acc
    exact optLeQ_trans (ih (tieStep acc t (f t))) (tieStep_min_le acc t (f t))

theorem tieStep_bound (acc : Option ℚ × List NodeId) (t : NodeId) {cv : ℚ} :
    optLeQ (tieStep acc t (some cv)).1 (some (cv + tieTol cv)) := by
  have htol := tieTol_pos cv
  cases hacc : acc.1 with
  | none =>
    rw [tieStep, hacc]
    show cv ≤ cv + tieTol cv
    linarith
  | some m =>
    rw [tieStep, hacc]
    dsimp only
    by_cases h1 : cv < qSub m (tieTol cv)
    · rw [if_pos h1]
      show cv ≤ cv + tieTol cv
      linarith
    · rw [if_neg h1]
      rw [qSub_eq, not_lt] at h1
      by_cases h2 : qAbs (qSub cv m) ≤ tieTol cv
      · rw [if_pos h2]
        show m ≤ cv + tieTol cv
        linarith
      · rw [if_neg h2, hacc]
        show m ≤ cv + tieTol cv
        linarith

theorem scan_bound (f : NodeId → Option ℚ) :
    ∀ (l : List NodeId) (acc : Option ℚ × List NodeId) (t : NodeId) (cv : ℚ),
      t ∈ l → f t = some cv →
      optLeQ (l.foldl (fun acc t => tieStep acc t (f t)) acc).1 (some (cv + tieTol cv)) := by
  intro l
  induction l with
  | nil => intro acc t cv h; cases h
  | cons u l ih =>
    intro acc t cv hmem hft
    rcases List.mem_cons.mp hmem with rfl | hmem2
    · rw [List.foldl_cons]
      refine optLeQ_trans (scan_min_le f l _) ?_
      rw [hft]
      exact tieStep_bound acc t
    · rw [List.foldl_cons]
      exact ih _ t cv hmem2 hft

theorem tieStep_min_cases (acc : Option ℚ × List NodeId) (t : NodeId) (c : Option ℚ)
    {m : ℚ} (h : (tieStep acc t c).1 = some m) : c = some m ∨ acc.1 = some m := by
  cases c with
  | none => exact Or.inr (by rw [tieStep] at h; exact h)
  | some cv =>
    cases hacc : acc.1 with
    | none =>
      rw [tieStep, hacc] at h
      exact Or.inl (by injection h with h; rw [h])
    | some m2 =>
      rw [tieStep, hacc] at h
      dsimp only at h
      by_cases h1 : cv < qSub m2 (tieTol cv)
      · rw [if_pos h1] at h
        exact Or.inl h
      · rw [if_neg h1] at h
        by_cases h2 : qAbs (qSub cv m2) ≤ tieTol cv
        · rw [if_pos h2] at h
          exact Or.inr h
        · rw [if_neg h2] at h
          exact Or.inr (hacc.symm.trans h)

theorem scan_min_cases (f : NodeId → Option ℚ) :
    ∀ (l : List NodeId) (acc : Option ℚ × List NodeId) (m : ℚ),
      (l.foldl (fun acc t => tieStep acc t (f t)) acc).1 = some m →
      (∃ t ∈ l, f t = some m) ∨ acc.1 = some m := by
  intro l
  induction l with
  | nil => exact fun acc m h => Or.inr h
  | cons u l ih =>
    intro acc m h
    rw [List.foldl_cons] at h
    rcases ih _ m h with ⟨t, ht, hft⟩ | h2
    · exact Or.inl ⟨t, List.mem_cons_of_mem _ ht, hft⟩
    · rcases tieStep_min_cases acc u (f u) h2 with h3 | h3
      · exact Or.inl ⟨u, List.mem_cons_self _ _, h3⟩
      · exact Or.inr h3

theorem spLen_witness {wg : WGraph} {t : NodeId} {c : ℚ} (h : spLen wg t = some c) :
    ∃ p ∈ sourceWalks wg, walkLast p = t ∧ walkCost wg p = c := by
  unfold spLen at h
  have hm := listMinQ_mem h
  simp only [List.mem_map, List.mem_filter, decide_eq_true_eq] at hm
  obtain ⟨p, ⟨hp, hlast⟩, hcost⟩ := hm
  exact ⟨p, hp, hlast, hcost⟩

theorem spLen_le {wg : WGraph} {t : NodeId} {c : ℚ} (h : spLen wg t = some c) :
    ∀ p ∈ sourceWalks wg, walkLast p = t → c ≤ walkCost wg p := by
  intro p hp hl
  refine listMinQ_le h _ ?_
  exact List.mem_map_of_mem _ (List.mem_filter.mpr ⟨hp, by simpa using hl⟩)

theorem spLen_isSome {wg : WGraph} {t : NodeId} {p : List NodeId}
    (hp : p ∈ sourceWalks wg) (hl : walkLast p = t) : ∃ c, spLen wg t = some c := by
  cases hs : spLen wg t with
  | some c => exact ⟨c, rfl⟩
  | none =>
    unfold spLen at hs
    rw [listMinQ_eq_none] at hs
    have : walkCost wg p ∈
        (((sourceWalks wg).filter fun q => decide (walkLast q = t)).map (walkCost wg)) :=
      List.mem_map_of_mem _ (List.mem_filter.mpr ⟨hp, by simpa using hl⟩)
    rw [hs] at this
    cases this

theorem hardWalkMin_le {wg : WGraph} {tm : ℚ} (h : hardWalkMin wg = some tm) :
    ∀ p ∈ sourceWalks wg, isHardNode wg (walkLast p) = true → tm ≤ walkCost wg p := by
  intro p hp hh
  refine listMinQ_le h _ ?_
  refine List.mem_filterMap.mpr ⟨p, hp, ?_⟩
  rw [if_pos hh]

theorem hardWalkMin_witness {wg : WGraph} {tm : ℚ} (h : hardWalkMin wg = some tm) :
    ∃ p ∈ sourceWalks wg, isHardNode wg (walkLast p) = true ∧ walkCost wg p = tm := by
  have hm := listMinQ_mem h
  rw [List.mem_filterMap] at hm
  obtain ⟨p, hp, hif⟩ := hm
  by_cases hh : isHardNode wg (walkLast p) = true
  · rw [if_pos hh] at hif
    injection hif with hif
    exact ⟨p, hp, hh, hif⟩
  · rw [if_neg hh] at hif
    cases hif

theorem mem_hardTargets_of_hard {wg : WGraph} {t : NodeId}
    (h : isHardNode wg t = true) : t ∈ hardTargets wg := by
  unfold isHardNode at h
  rw [List.any_eq_true] at h
  obtain ⟨p, hp, hpt⟩ := h
  simp only [Bool.and_eq_true, decide_eq_true_eq] at hpt
  unfold hardTargets
  rw [mem_sortByB]
  exact List.mem_map.mpr ⟨p, List.mem_filter.mpr ⟨hp, hpt.2⟩, hpt.1⟩

theorem hard_of_mem_hardTargets {wg : WGraph} {t : NodeId}
    (h : t ∈ hardTargets wg) : isHardNode wg t = true := by
  unfold hardTargets at h
  rw [mem_sortByB] at h
  obtain ⟨p, hp, hpt⟩ := List.mem_map.mp h
  rw [List.mem_filter] at hp
  unfold isHardNode
  rw [List.any_eq_true]
  exact ⟨p, hp.1, by simp [hpt, hp.2]⟩

theorem fbpCore_ok_spec {lg : ℚ → ℚ} {st : SteelState} {fs : List (String × FVal)}
    {mode : String} {alpha : ℚ} {paths : List (List NodeId)} {cost : ℚ} {sub : Graph}
    {details : List PathDetail} (h : fbpCore lg st fs mode alpha = .ok paths cost sub details) :
    pruneGraph st fs = some sub ∧
    (targetScan (weightedOf lg st mode alpha sub)
        (hardTargets (weightedOf lg st mode alpha sub))).1 = some cost ∧
    paths = (sortItems (extractItems st.compCols (weightedOf lg st mode alpha sub)
      (targetScan (weightedOf lg st mode alpha sub)
        (hardTargets (weightedOf lg st mode alpha sub))).2)).map (·.1) := by
  unfold fbpCore at h
  cases hp : pruneGraph st fs with
  | none =>
    rw [hp] at h
    exact absurd h (by simp)
  | some sub2 =>
    rw [hp] at h
    dsimp only at h
    by_cases hlen : sub2.nodes.length ≤ 1
    · rw [if_pos hlen] at h
      exact absurd h (by simp)
    · rw [if_neg hlen] at h
      by_cases hte : (hardTargets (weightedOf lg st mode alpha sub2)).isEmpty = true
      · rw [if_pos hte] at h
        exact absurd h (by simp)
      · rw [if_neg hte] at h
        cases hscan : targetScan (weightedOf lg st mode alpha sub2)
            (hardTargets (weightedOf lg st mode alpha sub2)) with
        | mk mOpt tied =>
          rw [hscan] at h
          cases mOpt with
          | none => exact absurd h (by simp)
          | some m =>
            dsimp only at h
            by_cases hemp : (sortItems (extractItems st.compCols
                (weightedOf lg st mode alpha sub2) tied)).isEmpty = true
            · rw [if_pos hemp] at h
              exact absurd h (by simp)
            · rw [if_neg hemp] at h
              injection h with h1 h2 h3 h4
              subst h3
              refine ⟨rfl, ?_, ?_⟩
              · rw [hscan, h2]
              · rw [hscan, ← h1]

/-- C1 (amended): on success the returned cost need not equal the true
minimum over all Source-to-Hardness paths of the weighted pruned subgraph
(see the counterexample); it is bracketed by it: the true minimum `tm`
satisfies `tm ≤ cost ≤ tm + max(1e-4, tm·1e-6)`.  The slack is exactly the
tolerance of the running-minimum scan, which can retain an earlier target
whose cost exceeds the true minimum by at most the tolerance.  The
non-negative-weights hypothesis records the precondition under which the
embedded exact shortest-path semantics is the semantics of the reference's
Dijkstra calls. -/
theorem c1_amended {lg : ℚ → ℚ} {st : SteelState} {fs : List (String × FVal)}
    {mode : String} {alpha : ℚ} {paths : List (List NodeId)} {cost : ℚ} {sub : Graph}
    {details : List PathDetail} {tm : ℚ}
    (hok : fbpCore lg st fs mode alpha = .ok paths cost sub details)
    (hw : ∀ we ∈ (weightedOf lg st mode alpha sub).edges, 0 ≤ we.weight)
    (htm : hardWalkMin (weightedOf lg st mode alpha sub) = some tm) :
    tm ≤ cost ∧ cost ≤ tm + max (1 / 10000) (tm * (1 / 1000000)) := by
  obtain ⟨-, hscan, -⟩ := fbpCore_ok_spec hok
  unfold targetScan at hscan
  constructor
  · rcases scan_min_cases (spLen (weightedOf lg st mode alpha sub)) _ _ _ hscan with
      ⟨t, ht, hft⟩ | hbase
    · obtain ⟨p, hp, hlast, hcost⟩ := spLen_witness hft
      have hhard := hard_of_mem_hardTargets ht
      rw [← hlast] at hhard
      have hle := hardWalkMin_le htm p hp hhard
      rw [hcost] at hle
      exact hle
    · exact absurd hbase (by simp)
  · obtain ⟨p, hp, hhard, hcost⟩ := hardWalkMin_witness htm
    obtain ⟨m2, hm2⟩ := spLen_isSome hp rfl
    have h1 : m2 ≤ tm := by
      have hle := spLen_le hm2 p hp rfl
      rw [hcost] at hle
      exact hle
    have h2 : tm ≤ m2 := by
      obtain ⟨q, hq, hqlast, hqcost⟩ := spLen_witness hm2
      have hqhard : isHardNode (weightedOf lg st mode alpha sub) (walkLast q) = true := by
        rw [hqlast]
        exact hhard
      have hle := hardWalkMin_le htm q hq hqhard
      rw [hqcost] at hle
      exact hle
    have hm2tm : m2 = tm := le_antisymm h1 h2
    rw [hm2tm] at hm2
    have htmem := mem_hardTargets_of_hard hhard
    have hbound := scan_bound (spLen (weightedOf lg st mode alpha sub)) _ (none, [])
      (walkLast p) tm htmem hm2
    rw [hscan] at hbound
    have hfin : cost ≤ tm + tieTol tm := hbound
    rw [tieTol_eq] at hfin
    exact hfin

/-- Counterexample for C1 as stated: in `dsTol` (time optimization, no
filters) the two targets cost `10.00005` and `10`; the larger-cost target
is scanned first (its label sorts first) and the smaller stays within the
`1e-4` tolerance, so the scan keeps the first minimum: the query returns
cost `10.00005` while the true minimum over all Source-to-Hardness paths
of the weighted pruned subgraph is `10`. -/
theorem c1_counterexample :
    fbpCost (fbpCore probeLog stTol [] "time" (mkRat 1 2)) = mkRat 200001 20000 ∧
    hardWalkMin (queryWG probeLog stTol [] "time" (mkRat 1 2)) = some (mkRat 10 1) ∧
    (mkRat 200001 20000 : ℚ) ≠ mkRat 10 1 :=
  ⟨by decide, by decide, by decide⟩

/-- Witness for C1's amended bound at Scenario A (cost and true minimum
both 10). -/
theorem c1_amended_witness :
    (mkRat 10 1 : ℚ) ≤
      fbpCost (fbpCore probeLog stScen
        [("hardness_range", FVal.rangeV (mkRat 45 1) (mkRat 55 1))] "time" (mkRat 1 2)) ∧
    fbpCost (fbpCore probeLog stScen
        [("hardness_range", FVal.rangeV (mkRat 45 1) (mkRat 55 1))] "time" (mkRat 1 2)) ≤
      mkRat 10 1 + max (1 / 10000) (mkRat 10 1 * (1 / 1000000)) :=
  c1_amended
    (rfl : fbpCore probeLog stScen
      [("hardness_range", FVal.rangeV (mkRat 45 1) (mkRat 55 1))] "time" (mkRat 1 2) =
      .ok (fbpPaths (fbpCore probeLog stScen
          [("hardness_range", FVal.rangeV (mkRat 45 1) (mkRat 55 1))] "time" (mkRat 1 2)))
        (fbpCost (fbpCore probeLog stScen
          [("hardness_range", FVal.rangeV (mkRat 45 1) (mkRat 55 1))] "time" (mkRat 1 2)))
        (getSub (pruneGraph stScen
          [("hardness_range", FVal.rangeV (mkRat 45 1) (mkRat 55 1))]))
        (fbpDetails (fbpCore probeLog stScen
          [("hardness_range", FVal.rangeV (mkRat 45 1) (mkRat 55 1))] "time" (mkRat 1 2))))
    (by decide) (by decide)

/-! ### C2: the tolerance comparison and tie extraction -/

theorem pathItem_fst {cc : List String} {wg : WGraph} {p : List NodeId}
    {it : List NodeId × PathDetail} (h : pathItem cc wg p = some it) : it.1 = p := by
  unfold pathItem at h
  split at h
  · dsimp only at h
    split at h
    · injection h with h
      rw [← h]
    · exact absurd h (by simp)
  · exact absurd h (by simp)

theorem mem_allShortestPaths {wg : WGraph} {t : NodeId} {p : List NodeId}
    (hp : p ∈ sourceWalks wg) (hl : walkLast p = t)
    (hsp : spLen wg t = some (walkCost wg p)) : p ∈ allShortestPathsTo wg t := by
  unfold allShortestPathsTo
  rw [hsp]
  exact List.mem_filter.mpr ⟨hp, by simp [hl]⟩

theorem extract_mem {cc : List String} {wg : WGraph} {tied : List NodeId} {t : NodeId}
    {p : List NodeId} {it : List NodeId × PathDetail} (ht : t ∈ tied)
    (hpath : p ∈ allShortestPathsTo wg t) (hitem : pathItem cc wg p = some it) :
    it ∈ extractItems cc wg tied := by
  unfold extractItems
  rw [List.mem_bind]
  exact ⟨t, ht, List.mem_filterMap.mpr ⟨p, hpath, hitem⟩⟩

/-- C2 (amended): the code's tolerance is computed from the candidate's
cost, not the running minimum: a candidate target's cost `c` is appended
to the tie set exactly when `¬(c < m − max(1e-4, c·1e-6))` and
`|c − m| ≤ max(1e-4, c·1e-6)` against the running minimum `m` (the two
sides differ from the specified `max(1e-4, m·1e-6)` once costs exceed
`100`; see the counterexample).  For every target of the final tie set,
every structurally valid walk from SOURCE to that target attaining the
target's exact shortest-path cost appears among the returned paths.  And
the returned list is exactly characterized: on success it equals the
stable ascending sort, by the found steel's name, of the concatenation —
over the tied targets in scan order — of every exact-minimum-cost walk to
that target passing the 5-node structural check (so nothing else is
returned, and within-tolerance but non-minimal walks to a tied target are
never returned). -/
theorem c2_amended :
    (∀ (m : ℚ) (acc : List NodeId) (t : NodeId) (c : ℚ),
      tieStep (some m, acc) t (some c) = (some m, acc ++ [t]) ↔
        (¬ c < m - max (1 / 10000) (c * (1 / 1000000)) ∧
          |c - m| ≤ max (1 / 10000) (c * (1 / 1000000)))) ∧
    (∀ (lg : ℚ → ℚ) (st : SteelState) (fs : List (String × FVal)) (mode : String)
      (alpha : ℚ) (paths : List (List NodeId)) (cost : ℚ) (sub : Graph)
      (details : List PathDetail) (t : NodeId) (p : List NodeId),
      fbpCore lg st fs mode alpha = .ok paths cost sub details →
      t ∈ (targetScan (weightedOf lg st mode alpha sub)
            (hardTargets (weightedOf lg st mode alpha sub))).2 →
      p ∈ sourceWalks (weightedOf lg st mode alpha sub) →
      walkLast p = t →
      spLen (weightedOf lg st mode alpha sub) t =
        some (walkCost (weightedOf lg st mode alpha sub) p) →
      (pathItem st.compCols (weightedOf lg st mode alpha sub) p).isSome = true →
      p ∈ paths) ∧
    (∀ (lg : ℚ → ℚ) (st : SteelState) (fs : List (String × FVal)) (mode : String)
      (alpha : ℚ) (paths : List (List NodeId)) (cost : ℚ) (sub : Graph)
      (details : List PathDetail),
      fbpCore lg st fs mode alpha = .ok paths cost sub details →
      paths = (sortByB (fun x y => strLeB x.2.foundSteel y.2.foundSteel)
          (((targetScan (weightedOf lg st mode alpha sub)
              (hardTargets (weightedOf lg st mode alpha sub))).2).bind fun t =>
            (allShortestPathsTo (weightedOf lg st mode alpha sub) t).filterMap
              (pathItem st.compCols (weightedOf lg st mode alpha sub)))).map (·.1)) := by
  refine ⟨?_, ?_, ?_⟩
  · intro m acc t c
    have hq1 : qSub m (tieTol c) = m - max (1 / 10000) (c * (1 / 1000000)) := by
      rw [qSub_eq, tieTol_eq]
    have hq2 : qAbs (qSub c m) = |c - m| := by
      rw [qAbs_eq, qSub_eq]
    have htolpos := tieTol_pos c
    rw [tieTol_eq] at htolpos
    show (tieStep (some m, acc) t (some c)) = _ ↔ _
    rw [tieStep]
    dsimp only
    by_cases h1 : c < qSub m (tieTol c)
    · rw [if_pos h1]
      rw [hq1] at h1
      constructor
      · intro heq
        have hfst : some c = some m := congrArg Prod.fst heq
        injection hfst with hfst
        rw [hfst] at h1
        have hpos : (0 : ℚ) < max (1 / 10000) (m * (1 / 1000000)) :=
          lt_max_of_lt_left (by norm_num)
        exact absurd h1 (by simp only [not_lt]; linarith)
      · rintro ⟨hc1, -⟩
        exact absurd h1 hc1
    · rw [if_neg h1]
      rw [hq1] at h1
      by_cases h2 : qAbs (qSub c m) ≤ tieTol c
      · rw [if_pos h2]
        rw [hq2, tieTol_eq] at h2
        exact iff_of_true rfl ⟨h1, h2⟩
      · rw [if_neg h2]
        rw [hq2, tieTol_eq] at h2
        constructor
        · intro heq
          have hsnd : acc = acc ++ [t] := congrArg Prod.snd heq
          have := congrArg List.length hsnd
          simp at this
        · rintro ⟨-, hc2⟩
          exact absurd hc2 h2
  · intro lg st fs mode alpha paths cost sub details t p hok htied hp hlast hsp hitem
    obtain ⟨-, -, hpaths⟩ := fbpCore_ok_spec hok
    rw [hpaths]
    obtain ⟨it, hit⟩ := Option.isSome_iff_exists.mp hitem
    refine List.mem_map.mpr ⟨it, ?_, pathItem_fst hit⟩
    unfold sortItems
    rw [mem_sortByB]
    exact extract_mem htied (mem_allShortestPaths hp hlast hsp) hit
  · intro lg st fs mode alpha paths cost sub details hok
    exact (fbpCore_ok_spec hok).2.2

/-- Counterexample for C2 as stated: in `dsTolBig` the running minimum is
`2·10^8` when the second target (cost `2·10^8 + 200.0001`) is scanned.
The specified test `|cost − min| ≤ max(1e-4, min·1e-6)` rejects it
(`200.0001 > 200`), yet the code appends it to the tie set — its tolerance
is computed from the candidate (`max(1e-4, cost·1e-6) ≈ 200.0002`) — and
the query returns both targets' paths. -/
theorem c2_counterexample :
    (fbpPaths (fbpCore probeLog stTolBig [] "time" (mkRat 1 2))).length = 2 ∧
    tieStep (some (mkRat 200000000 1), [NodeId.hard (some (mkRat 10 1))])
        (NodeId.hard (some (mkRat 9 1))) (some (mkRat 2000002000001 10000)) =
      (some (mkRat 200000000 1),
        [NodeId.hard (some (mkRat 10 1)), NodeId.hard (some (mkRat 9 1))]) ∧
    (mkRat 2000002000001 10000 : ℚ) = 200000200.0001 ∧
    (mkRat 200000000 1 : ℚ) = 200000000 ∧
    ¬(|(200000200.0001 : ℚ) - 200000000| ≤
        max (1 / 10000) ((200000000 : ℚ) * (1 / 1000000))) :=
  ⟨by decide, by decide, by rw [Rat.mkRat_eq_div]; norm_num,
    by rw [Rat.mkRat_eq_div]; norm_num, by rw [abs_le]; norm_num⟩

/-- Witness for C2's amended statement: the tie-set iff at `m = 10`,
`c = 10.00005`, the path-membership half on the Scenario-A run, whose
unique optimal path is returned, and the exact characterization of that
run's returned list. -/
theorem c2_amended_witness :
    (tieStep (some (mkRat 10 1), []) (NodeId.hard (some (mkRat 9 1)))
        (some (mkRat 200001 20000)) =
      (some (mkRat 10 1), [] ++ [NodeId.hard (some (mkRat 9 1))]) ↔
      (¬ (mkRat 200001 20000 : ℚ) <
          mkRat 10 1 - max (1 / 10000) (mkRat 200001 20000 * (1 / 1000000)) ∧
        |(mkRat 200001 20000 : ℚ) - mkRat 10 1| ≤
          max (1 / 10000) (mkRat 200001 20000 * (1 / 1000000)))) ∧
    [NodeId.source, NodeId.steel "SteelX", NodeId.time (mkRat 10 1) 0,
        NodeId.temp (mkRat 200 1) 0, NodeId.hard (some (mkRat 50 1))] ∈
      fbpPaths (fbpCore probeLog stScen
        [("hardness_range", FVal.rangeV (mkRat 45 1) (mkRat 55 1))] "time" (mkRat 1 2)) ∧
    fbpPaths (fbpCore probeLog stScen
        [("hardness_range", FVal.rangeV (mkRat 45 1) (mkRat 55 1))] "time" (mkRat 1 2))
      = (sortByB (fun x y => strLeB x.2.foundSteel y.2.foundSteel)
          (((targetScan
              (weightedOf probeLog stScen "time" (mkRat 1 2)
                (getSub (pruneGraph stScen
                  [("hardness_range", FVal.rangeV (mkRat 45 1) (mkRat 55 1))])))
              (hardTargets (weightedOf probeLog stScen "time" (mkRat 1 2)
                (getSub (pruneGraph stScen
                  [("hardness_range", FVal.rangeV (mkRat 45 1) (mkRat 55 1))]))))).2).bind
            fun t =>
              (allShortestPathsTo
                (weightedOf probeLog stScen "time" (mkRat 1 2)
                  (getSub (pruneGraph stScen
                    [("hardness_range", FVal.rangeV (mkRat 45 1) (mkRat 55 1))]))) t).filterMap
                (pathItem stScen.compCols
                  (weightedOf probeLog stScen "time" (mkRat 1 2)
                    (getSub (pruneGraph stScen
                      [("hardness_range",
                        FVal.rangeV (mkRat 45 1) (mkRat 55 1))])))))).map (·.1) :=
  ⟨c2_amended.1 (mkRat 10 1) [] (NodeId.hard (some (mkRat 9 1))) (mkRat 200001 20000),
    c2_amended.2.1 probeLog stScen
      [("hardness_range", FVal.rangeV (mkRat 45 1) (mkRat 55 1))] "time" (mkRat 1 2)
      (fbpPaths (fbpCore probeLog stScen
        [("hardness_range", FVal.rangeV (mkRat 45 1) (mkRat 55 1))] "time" (mkRat 1 2)))
      (fbpCost (fbpCore probeLog stScen
        [("hardness_range", FVal.rangeV (mkRat 45 1) (mkRat 55 1))] "time" (mkRat 1 2)))
      (getSub (pruneGraph stScen
        [("hardness_range", FVal.rangeV (mkRat 45 1) (mkRat 55 1))]))
      (fbpDetails (fbpCore probeLog stScen
        [("hardness_range", FVal.rangeV (mkRat 45 1) (mkRat 55 1))] "time" (mkRat 1 2)))
      (NodeId.hard (some (mkRat 50 1)))
      [NodeId.source, NodeId.steel "SteelX", NodeId.time (mkRat 10 1) 0,
        NodeId.temp (mkRat 200 1) 0, NodeId.hard (some (mkRat 50 1))]
      rfl (by decide) (by decide) (by decide) (by decide) (by decide),
    c2_amended.2.2 probeLog stScen
      [("hardness_range", FVal.rangeV (mkRat 45 1) (mkRat 55 1))] "time" (mkRat 1 2)
      (fbpPaths (fbpCore probeLog stScen
        [("hardness_range", FVal.rangeV (mkRat 45 1) (mkRat 55 1))] "time" (mkRat 1 2)))
      (fbpCost (fbpCore probeLog stScen
        [("hardness_range", FVal.rangeV (mkRat 45 1) (mkRat 55 1))] "time" (mkRat 1 2)))
      (getSub (pruneGraph stScen
        [("hardness_range", FVal.rangeV (mkRat 45 1) (mkRat 55 1))]))
      (fbpDetails (fbpCore probeLog stScen
        [("hardness_range", FVal.rangeV (mkRat 45 1) (mkRat 55 1))] "time" (mkRat 1 2)))
      rfl⟩

/-! ### C7: degenerate alpha

In mode `balanced` with `alpha = 0` the time term of every weight is
multiplied by zero, leaving the temperature term `(1-0) * (v / max_temp)`:
every edge weight is the temperature-mode weight divided by the constant
`max_temp`. A positive rescaling of all weights preserves the exact
shortest-path set of every target, so `nx.all_shortest_paths` agrees
between the two modes target by target. It does not preserve the
tolerance-based tie scan, whose absolute floor `1e-4` is not
scale-invariant, and with `alpha = 1` the time weight is
`log(max(t,1)) / log_max_time`, not the time `t` itself. -/

theorem weightOf_balanced_zero (lg : ℚ → ℚ) (st : SteelState) (alpha : ℚ) (a : EAttr) :
    weightOf lg st "balanced" 0 a = weightOf lg st "temperature" alpha a / st.maxTemp := by
  cases a with
  | timeA t =>
    show (if ("balanced" : String) = "time" then t
        else if ("balanced" : String) = "balanced" then
          qMul 0 (qDiv (lg (qMax t 1)) st.logMaxTime) else 0) =
      (if ("temperature" : String) = "time" then t
        else if ("temperature" : String) = "balanced" then
          qMul alpha (qDiv (lg (qMax t 1)) st.logMaxTime) else 0) / st.maxTemp
    rw [if_neg (by decide), if_pos rfl, if_neg (by decide), if_neg (by decide),
      qMul_eq, zero_mul, zero_div]
  | tempA v =>
    show (if ("balanced" : String) = "temperature" then v
        else if ("balanced" : String) = "balanced" then
          qMul (qSub 1 0) (qDiv v st.maxTemp) else 0) =
      (if ("temperature" : String) = "temperature" then v
        else if ("temperature" : String) = "balanced" then
          qMul (qSub 1 alpha) (qDiv v st.maxTemp) else 0) / st.maxTemp
    rw [if_neg (by decide), if_pos rfl, if_pos rfl, qSub_eq, sub_zero, qMul_eq, one_mul,
      qDiv_eq]
  | noAttr => exact (zero_div _).symm

/-- The `alpha = 1` weights: the normalized logarithm of the time for
Steel→Time edges, zero for Time→Temperature edges. -/
theorem weightOf_balanced_one (lg : ℚ → ℚ) (st : SteelState) :
    (∀ t, weightOf lg st "balanced" 1 (.timeA t) = lg (max t 1) / st.logMaxTime) ∧
    (∀ v, weightOf lg st "balanced" 1 (.tempA v) = 0) := by
  constructor
  · intro t
    show (if ("balanced" : String) = "time" then t
        else if ("balanced" : String) = "balanced" then
          qMul 1 (qDiv (lg (qMax t 1)) st.logMaxTime) else 0) = lg (max t 1) / st.logMaxTime
    rw [if_neg (by decide), if_pos rfl, qMul_eq, one_mul, qDiv_eq, qMax_eq]
  · intro v
    show (if ("balanced" : String) = "temperature" then v
        else if ("balanced" : String) = "balanced" then
          qMul (qSub 1 1) (qDiv v st.maxTemp) else 0) = 0
    rw [if_neg (by decide), if_pos rfl, qSub_eq, sub_self, qMul_eq, zero_mul]

/-- The balanced-`alpha = 0` weighted graph is the temperature weighted
graph with every weight divided by `max_temp`. -/
theorem weightedOf_balanced_zero (lg : ℚ → ℚ) (st : SteelState) (alpha : ℚ) (sub : Graph) :
    (weightedOf lg st "balanced" 0 sub).nodes
      = (weightedOf lg st "temperature" alpha sub).nodes ∧
    (weightedOf lg st "balanced" 0 sub).edges
      = (weightedOf lg st "temperature" alpha sub).edges.map
          fun e => ⟨e.src, e.dst, e.attr, e.weight / st.maxTemp⟩ := by
  refine ⟨rfl, ?_⟩
  show (sortByB (fun p q => nodeLeB p.1 q.1) sub.nodes).flatMap _
    = List.map _ ((sortByB (fun p q => nodeLeB p.1 q.1) sub.nodes).flatMap _)
  rw [List.map_flatMap]
  refine List.flatMap_congr fun p _ => ?_
  rw [List.map_map]
  refine List.map_congr_left fun e _ => ?_
  show (⟨e.src, e.dst, e.attr, weightOf lg st "balanced" 0 e.attr⟩ : WEdge)
    = (⟨e.src, e.dst, e.attr, weightOf lg st "temperature" alpha e.attr / st.maxTemp⟩ : WEdge)
  rw [weightOf_balanced_zero lg st alpha]

theorem wSuccs_scaled {wg wg' : WGraph} {c : ℚ}
    (he : wg'.edges = wg.edges.map fun e => ⟨e.src, e.dst, e.attr, e.weight / c⟩)
    (u : NodeId) :
    wSuccs wg' u = (wSuccs wg u).map fun e => ⟨e.src, e.dst, e.attr, e.weight / c⟩ := by
  rw [wSuccs, wSuccs, he, List.filter_map]
  rfl

theorem walksFrom_scaled {wg wg' : WGraph} {c : ℚ}
    (he : wg'.edges = wg.edges.map fun e => ⟨e.src, e.dst, e.attr, e.weight / c⟩) :
    ∀ n u, walksFrom wg' n u = walksFrom wg n u := by
  intro n
  induction n with
  | zero => intro u; rfl
  | succ n ih =>
    intro u
    rw [walksFrom, walksFrom, wSuccs_scaled he]
    refine congrArg ([[u]] ++ ·) ?_
    show ((wSuccs wg u).map fun e => (⟨e.src, e.dst, e.attr, e.weight / c⟩ : WEdge)).flatMap
        (fun e => (walksFrom wg' n e.dst).map (u :: ·))
      = (wSuccs wg u).flatMap fun e => (walksFrom wg n e.dst).map (u :: ·)
    rw [List.flatMap_map]
    refine List.flatMap_congr fun e _ => ?_
    show (walksFrom wg' n e.dst).map (u :: ·) = (walksFrom wg n e.dst).map (u :: ·)
    rw [ih e.dst]

theorem edgeWeight_scaled {wg wg' : WGraph} {c : ℚ}
    (he : wg'.edges = wg.edges.map fun e => ⟨e.src, e.dst, e.attr, e.weight / c⟩)
    (u v : NodeId) :
    edgeWeight wg' u v = edgeWeight wg u v / c := by
  rw [edgeWeight, edgeWeight, he, List.find?_map]
  have hpp : ((fun e : WEdge => e.src = u && e.dst = v) ∘
      (fun e : WEdge => (⟨e.src, e.dst, e.attr, e.weight / c⟩ : WEdge)))
      = fun e : WEdge => e.src = u && e.dst = v := rfl
  rw [hpp]
  cases h : wg.edges.find? fun e => e.src = u && e.dst = v with
  | none => exact (zero_div _).symm
  | some e => rfl

theorem walkCost_scaled {wg wg' : WGraph} {c : ℚ}
    (he : wg'.edges = wg.edges.map fun e => ⟨e.src, e.dst, e.attr, e.weight / c⟩) :
    ∀ p, walkCost wg' p = walkCost wg p / c := by
  intro p
  induction p with
  | nil => exact (zero_div _).symm
  | cons a q ih =>
    cases q with
    | nil => exact (zero_div _).symm
    | cons b r =>
      rw [walkCost, walkCost, qAdd_eq, qAdd_eq, edgeWeight_scaled he, ih,
        div_add_div_same]

theorem listMinQ_map_div {c : ℚ} (hc : 0 < c) {α : Type} (f : α → ℚ) :
    ∀ l : List α, listMinQ (l.map fun x => f x / c) = (listMinQ (l.map f)).map (· / c) := by
  intro l
  induction l with
  | nil => rfl
  | cons a l ih =>
    rw [List.map_cons, List.map_cons, listMinQ, listMinQ, ih]
    cases hl : listMinQ (l.map f) with
    | none => rfl
    | some m =>
      show some (qMin (f a / c) (m / c)) = some (qMin (f a) m / c)
      rw [qMin_eq, qMin_eq, div_eq_mul_inv, div_eq_mul_inv, div_eq_mul_inv,
        ← min_mul_of_nonneg _ _ (inv_nonneg.2 hc.le)]

theorem spLen_scaled {wg wg' : WGraph} {c : ℚ} (hc : 0 < c)
    (hn : wg'.nodes = wg.nodes)
    (he : wg'.edges = wg.edges.map fun e => ⟨e.src, e.dst, e.attr, e.weight / c⟩)
    (t : NodeId) :
    spLen wg' t = (spLen wg t).map (· / c) := by
  rw [spLen, spLen, sourceWalks, sourceWalks, hn, walksFrom_scaled he]
  rw [List.map_congr_left fun p _ => walkCost_scaled he p]
  exact listMinQ_map_div hc (walkCost wg) _

theorem allShortestPathsTo_scaled {wg wg' : WGraph} {c : ℚ} (hc : 0 < c)
    (hn : wg'.nodes = wg.nodes)
    (he : wg'.edges = wg.edges.map fun e => ⟨e.src, e.dst, e.attr, e.weight / c⟩)
    (t : NodeId) :
    allShortestPathsTo wg' t = allShortestPathsTo wg t := by
  rw [allShortestPathsTo, allShortestPathsTo, spLen_scaled hc hn he]
  cases hsp : spLen wg t with
  | none => rfl
  | some m =>
    show List.filter _ (sourceWalks wg') = List.filter _ (sourceWalks wg)
    rw [sourceWalks, sourceWalks, hn, walksFrom_scaled he]
    refine List.filter_congr fun p _ => ?_
    show (decide (walkLast p = t) && decide (walkCost wg' p = m / c))
      = (decide (walkLast p = t) && decide (walkCost wg p = m))
    rw [walkCost_scaled he]
    cases hlast : decide (walkLast p = t) with
    | false => rfl
    | true =>
      show (true && _) = (true && _)
      rw [Bool.true_and, Bool.true_and]
      by_cases hw : walkCost wg p = m
      · rw [decide_eq_true (by rw [hw]), decide_eq_true hw]
      · have hne : ¬ walkCost wg p / c = m / c := by
          intro hdiv
          rw [div_eq_mul_inv, div_eq_mul_inv] at hdiv
          exact hw (mul_left_injective₀ (inv_ne_zero (ne_of_gt hc)) hdiv)
        rw [decide_eq_false hne, decide_eq_false hw]

/-- C7, amended: with a positive dataset maximum temperature, mode
`balanced` at `alpha = 0` assigns every edge the temperature-mode weight
divided by `max_temp`, so the exact shortest-path set of every target —
what `nx.all_shortest_paths` returns — coincides with temperature mode;
at `alpha = 1` the surviving weight is the normalized logarithm
`log(max(t,1)) / log_max_time` of the time, not the time itself. The
original claim fails at the tolerance-based tie scan, whose absolute
floor `1e-4` is not invariant under the `1 / max_temp` rescaling (see the
counterexample). -/
theorem c7_amended (lg : ℚ → ℚ) (st : SteelState) (alpha : ℚ) (sub : Graph) (t : NodeId)
    (hc : 0 < st.maxTemp) :
    (∀ a, weightOf lg st "balanced" 0 a = weightOf lg st "temperature" alpha a / st.maxTemp) ∧
    allShortestPathsTo (weightedOf lg st "balanced" 0 sub) t
      = allShortestPathsTo (weightedOf lg st "temperature" alpha sub) t ∧
    (∀ tv, weightOf lg st "balanced" 1 (.timeA tv) = lg (max tv 1) / st.logMaxTime) ∧
    (∀ v, weightOf lg st "balanced" 1 (.tempA v) = 0) := by
  obtain ⟨hn, he⟩ := weightedOf_balanced_zero lg st alpha sub
  exact ⟨weightOf_balanced_zero lg st alpha,
    allShortestPathsTo_scaled hc hn he t,
    (weightOf_balanced_one lg st).1, (weightOf_balanced_one lg st).2⟩

/-- C7 counterexample: on the `dsAlpha` dataset (temperatures 200, 200.02
and 1000, all times equal) the temperature query returns the single
200-degree path, but `balanced` with `alpha = 0` returns two paths: the
rescaled costs 0.2 and 0.20002 differ by less than the absolute tolerance
floor `1e-4`, so the 200.02-degree target ties. -/
theorem c7_counterexample :
    (fbpPaths (fbpCore probeLog stAlpha fsAlpha "temperature" (mkRat 1 2))).length = 1 ∧
    (fbpPaths (fbpCore probeLog stAlpha fsAlpha "balanced" (mkRat 0 1))).length = 2 ∧
    fbpPaths (fbpCore probeLog stAlpha fsAlpha "balanced" (mkRat 0 1))
      ≠ fbpPaths (fbpCore probeLog stAlpha fsAlpha "temperature" (mkRat 1 2)) := by
  decide

theorem c7_amended_witness :
    0 < stAlpha.maxTemp ∧
    allShortestPathsTo
        (weightedOf probeLog stAlpha "balanced" 0 (getSub (pruneGraph stAlpha fsAlpha)))
        (.hard (some (mkRat 50 1)))
      = allShortestPathsTo
        (weightedOf probeLog stAlpha "temperature" (mkRat 1 2)
          (getSub (pruneGraph stAlpha fsAlpha)))
        (.hard (some (mkRat 50 1))) :=
  ⟨by decide,
    (c7_amended probeLog stAlpha (mkRat 1 2) (getSub (pruneGraph stAlpha fsAlpha))
      (.hard (some (mkRat 50 1))) (by decide)).2.1⟩

/-! ### C3: reachability through step 3 of the prune

The machinery below settles P2. Chains (`chainB`) are the common currency:
soundness and completeness of the fuel-bounded reachable sets
(`reachAux`) convert between membership in `descendants`/`ancestors` and
chains, reversal converts ancestor chains of the transposed graph to
forward chains, and the strict layer increase of every edge bounds chain
lengths by the node count, which converts chains back into members of the
walk enumeration `gWalksFrom`. -/

theorem mem_reachExpand {g : Graph} {s : List NodeId} {x : NodeId} :
    x ∈ reachExpand g s ↔ x ∈ s ∨ ∃ e ∈ g.edges, e.src ∈ s ∧ e.dst = x := by
  unfold reachExpand
  rw [List.mem_append]
  constructor
  · rintro (hx | hx)
    · exact Or.inl hx
    · rw [List.mem_filter] at hx
      obtain ⟨hx1, -⟩ := hx
      rw [List.mem_map] at hx1
      obtain ⟨e, he, hdst⟩ := hx1
      rw [List.mem_filter] at he
      exact Or.inr ⟨e, he.1, List.elem_iff.mp he.2, hdst⟩
  · rintro (hx | ⟨e, he, hsrc, hdst⟩)
    · exact Or.inl hx
    · by_cases hxs : x ∈ s
      · exact Or.inl hxs
      · refine Or.inr ?_
        rw [List.mem_filter]
        refine ⟨List.mem_map.mpr ⟨e, List.mem_filter.mpr
          ⟨he, List.elem_iff.mpr hsrc⟩, hdst⟩, ?_⟩
        cases hc : s.contains x with
        | false => rfl
        | true => exact absurd (List.elem_iff.mp hc) hxs

theorem reachExpand_mono {g : Graph} {s1 s2 : List NodeId} (h : s1 ⊆ s2) :
    reachExpand g s1 ⊆ reachExpand g s2 := by
  intro x hx
  rcases mem_reachExpand.mp hx with hx | ⟨e, he, hsrc, hdst⟩
  · exact mem_reachExpand.mpr (Or.inl (h hx))
  · exact mem_reachExpand.mpr (Or.inr ⟨e, he, h hsrc, hdst⟩)

theorem subset_reachExpand {g : Graph} {s : List NodeId} : s ⊆ reachExpand g s :=
  fun _ hx => mem_reachExpand.mpr (Or.inl hx)

theorem reachAux_seed_mono {g : Graph} :
    ∀ n {s1 s2 : List NodeId}, s1 ⊆ s2 → reachAux g n s1 ⊆ reachAux g n s2 := by
  intro n
  induction n with
  | zero => intro s1 s2 h; exact h
  | succ n ih => intro s1 s2 h; exact ih (reachExpand_mono h)

theorem subset_reachAux {g : Graph} : ∀ n (s : List NodeId), s ⊆ reachAux g n s := by
  intro n
  induction n with
  | zero => intro s; exact fun _ h => h
  | succ n ih =>
    intro s
    exact fun x hx => ih (reachExpand g s) (subset_reachExpand hx)

theorem reach_sound {g : Graph} :
    ∀ n (s : List NodeId) (x : NodeId), x ∈ reachAux g n s →
      ∃ y ∈ s, ∃ tl, chainB g (y :: tl) = true ∧ walkLast (y :: tl) = x := by
  intro n
  induction n with
  | zero => intro s x hx; exact ⟨x, hx, [], rfl, rfl⟩
  | succ n ih =>
    intro s x hx
    obtain ⟨y, hy, tl, hchain, hlast⟩ := ih (reachExpand g s) x hx
    rcases mem_reachExpand.mp hy with hy | ⟨e, he, hsrc, hdst⟩
    · exact ⟨y, hy, tl, hchain, hlast⟩
    · refine ⟨e.src, hsrc, y :: tl, ?_, hlast⟩
      have hadj : adjB g e.src y = true := by
        unfold adjB
        rw [List.any_eq_true]
        exact ⟨e, he, by simp [hdst]⟩
      rw [chainB, Bool.and_eq_true]
      exact ⟨hadj, hchain⟩

theorem reach_complete {g : Graph} :
    ∀ n (q : List NodeId) (y : NodeId), chainB g (y :: q) = true →
      (y :: q).length ≤ n + 1 → ∀ s : List NodeId, y ∈ s →
      walkLast (y :: q) ∈ reachAux g n s := by
  intro n
  induction n with
  | zero =>
    intro q y hchain hlen s hy
    cases q with
    | nil => exact hy
    | cons b r => simp at hlen
  | succ n ih =>
    intro q y hchain hlen s hy
    cases q with
    | nil => exact subset_reachAux (n + 1) s hy
    | cons b r =>
      rw [chainB, Bool.and_eq_true] at hchain
      obtain ⟨hadj, hchain2⟩ := hchain
      unfold adjB at hadj
      rw [List.any_eq_true] at hadj
      obtain ⟨e, he, hep⟩ := hadj
      simp only [Bool.and_eq_true, decide_eq_true_eq] at hep
      have hb : b ∈ reachExpand g s :=
        mem_reachExpand.mpr (Or.inr ⟨e, he, hep.1 ▸ hy, hep.2⟩)
      have hlen2 : (b :: r).length ≤ n + 1 := by
        simpa using Nat.le_of_succ_le_succ (by simpa using hlen)
      exact ih r b hchain2 hlen2 (reachExpand g s) hb

theorem walkLast_append {q : List NodeId} :
    ∀ (p : List NodeId) (b : NodeId) (r : List NodeId), q = b :: r →
      walkLast (p ++ q) = walkLast q := by
  intro p
  induction p with
  | nil => intro b r _; rfl
  | cons a p' ih =>
    intro b r hq
    cases p' with
    | nil => rw [hq]; rfl
    | cons c p'' =>
      show walkLast (c :: p'' ++ q) = walkLast q
      exact ih b r hq

theorem chain_tail {g : Graph} {a : NodeId} {l : List NodeId}
    (h : chainB g (a :: l) = true) : chainB g l = true := by
  cases l with
  | nil => rfl
  | cons b r =>
    rw [chainB, Bool.and_eq_true] at h
    exact h.2

theorem chain_append_chain {g : Graph} :
    ∀ (p : List NodeId) (m : NodeId) (q : List NodeId), chainB g p = true →
      walkLast p = m → chainB g (m :: q) = true → chainB g (p ++ q) = true := by
  intro p
  induction p with
  | nil => intro m q _ _ hq; exact chain_tail hq
  | cons x p' ih =>
    intro m q hp hlast hq
    cases p' with
    | nil =>
      have hx : x = m := hlast
      rw [hx]
      exact hq
    | cons y r =>
      rw [chainB, Bool.and_eq_true] at hp
      show chainB g (x :: (y :: r ++ q)) = true
      rw [show x :: (y :: r ++ q) = x :: y :: (r ++ q) from rfl, chainB, Bool.and_eq_true]
      exact ⟨hp.1, ih m q hp.2 hlast hq⟩

theorem walkLast_mem : ∀ (tl : List NodeId) (a : NodeId), walkLast (a :: tl) ∈ a :: tl := by
  intro tl
  induction tl with
  | nil => intro a; exact List.mem_singleton.mpr rfl
  | cons b r ih =>
    intro a
    exact List.mem_cons_of_mem a (ih b)

theorem chain_suffix {g : Graph} :
    ∀ (p : List NodeId) (x : NodeId), chainB g p = true → x ∈ p →
      ∃ tl, chainB g (x :: tl) = true ∧ walkLast (x :: tl) = walkLast p := by
  intro p
  induction p with
  | nil => intro x _ hx; exact absurd hx (List.not_mem_nil x)
  | cons a tl' ih =>
    intro x hchain hx
    rcases List.mem_cons.mp hx with hxa | hxtl
    · exact ⟨tl', hxa ▸ hchain, by rw [hxa]⟩
    · cases tl' with
      | nil => exact absurd hxtl (List.not_mem_nil x)
      | cons b r =>
        obtain ⟨tl, h1, h2⟩ := ih x (chain_tail hchain) hxtl
        exact ⟨tl, h1, h2⟩

theorem chain_prefix {g : Graph} :
    ∀ (tl : List NodeId) (u x : NodeId), chainB g (u :: tl) = true → x ∈ u :: tl →
      ∃ tl', chainB g (u :: tl') = true ∧ walkLast (u :: tl') = x := by
  intro tl
  induction tl with
  | nil =>
    intro u x _ hx
    rw [List.mem_singleton.mp hx]
    exact ⟨[], rfl, rfl⟩
  | cons b r ih =>
    intro u x hchain hx
    rcases List.mem_cons.mp hx with hxu | hxtl
    · exact ⟨[], rfl, hxu.symm⟩
    · rw [chainB, Bool.and_eq_true] at hchain
      obtain ⟨tl', h1, h2⟩ := ih b x hchain.2 hxtl
      refine ⟨b :: tl', ?_, h2⟩
      rw [chainB, Bool.and_eq_true]
      exact ⟨hchain.1, h1⟩

theorem reverse_head_last :
    ∀ (tl : List NodeId) (y : NodeId),
      ∃ tl2, (y :: tl).reverse = walkLast (y :: tl) :: tl2 ∧
        walkLast ((y :: tl).reverse) = y := by
  intro tl
  induction tl with
  | nil => intro y; exact ⟨[], rfl, rfl⟩
  | cons b r ih =>
    intro y
    obtain ⟨tl2, h1, -⟩ := ih b
    refine ⟨tl2 ++ [y], ?_, ?_⟩
    · rw [show (y :: b :: r).reverse = (b :: r).reverse ++ [y] from List.reverse_cons _ _, h1]
      rfl
    · rw [show (y :: b :: r).reverse = (b :: r).reverse ++ [y] from List.reverse_cons _ _]
      exact walkLast_append _ y [] rfl

theorem adjB_reversed (g : Graph) (a b : NodeId) : adjB g.reversed a b = adjB g b a := by
  unfold adjB Graph.reversed
  rw [List.any_map]
  have : ((fun e : GEdge => e.src = a && e.dst = b) ∘
      (fun e : GEdge => (⟨e.dst, e.src, e.attr⟩ : GEdge)))
      = fun e : GEdge => e.dst = a && e.src = b := rfl
  rw [this,
    show (fun e : GEdge => e.dst = a && e.src = b) = (fun e : GEdge => e.src = b && e.dst = a)
      from funext fun e => Bool.and_comm _ _]

theorem chain_flip {g h : Graph} (hadj : ∀ a b, adjB h a b = adjB g b a) :
    ∀ p, chainB g p = true → chainB h p.reverse = true := by
  intro p
  induction p with
  | nil => intro _; rfl
  | cons a tl ih =>
    intro hchain
    cases tl with
    | nil => rfl
    | cons b r =>
      rw [chainB, Bool.and_eq_true] at hchain
      have hrev := ih hchain.2
      rw [show (a :: b :: r).reverse = (b :: r).reverse ++ [a] from List.reverse_cons _ _]
      obtain ⟨tl2, -, hlast⟩ := reverse_head_last r b
      refine chain_append_chain _ b [a] hrev hlast ?_
      rw [chainB, Bool.and_eq_true]
      exact ⟨(hadj b a).trans hchain.1, rfl⟩

theorem adjB_layer_lt {g : Graph}
    (hstrict : ∀ e ∈ g.edges, layerOfId e.src < layerOfId e.dst) {a b : NodeId}
    (h : adjB g a b = true) : layerOfId a < layerOfId b := by
  unfold adjB at h
  rw [List.any_eq_true] at h
  obtain ⟨e, he, hp⟩ := h
  simp only [Bool.and_eq_true, decide_eq_true_eq] at hp
  rw [← hp.1, ← hp.2]
  exact hstrict e he

theorem chain_pairwise {g : Graph}
    (hstrict : ∀ e ∈ g.edges, layerOfId e.src < layerOfId e.dst) :
    ∀ p, chainB g p = true →
      List.Pairwise (fun a b => layerOfId a < layerOfId b) p := by
  intro p
  induction p with
  | nil => intro _; exact List.Pairwise.nil
  | cons a tl ih =>
    intro hchain
    cases tl with
    | nil => exact List.pairwise_singleton _ a
    | cons b r =>
      rw [chainB, Bool.and_eq_true] at hchain
      have hpw := ih hchain.2
      rw [List.pairwise_cons]
      refine ⟨?_, hpw⟩
      intro x hx
      rcases List.mem_cons.mp hx with hxb | hxr
      · rw [hxb]; exact adjB_layer_lt hstrict hchain.1
      · exact lt_trans (adjB_layer_lt hstrict hchain.1)
          ((List.pairwise_cons.mp hpw).1 x hxr)

theorem chain_nodup {g : Graph}
    (hstrict : ∀ e ∈ g.edges, layerOfId e.src < layerOfId e.dst) {p : List NodeId}
    (h : chainB g p = true) : p.Nodup :=
  (chain_pairwise hstrict p h).imp fun hlt heq => absurd (heq ▸ hlt) (lt_irrefl _)

theorem chain_nodes {g : Graph}
    (hclose : ∀ e ∈ g.edges, (∃ d, (e.src, d) ∈ g.nodes) ∧ (∃ d, (e.dst, d) ∈ g.nodes)) :
    ∀ p, chainB g p = true → 2 ≤ p.length → ∀ x ∈ p, ∃ dx, (x, dx) ∈ g.nodes := by
  intro p
  induction p with
  | nil => intro _ hlen; simp at hlen
  | cons a tl ih =>
    intro hchain hlen x hx
    cases tl with
    | nil => simp at hlen
    | cons b r =>
      rw [chainB, Bool.and_eq_true] at hchain
      unfold adjB at *
      rw [List.any_eq_true] at *
      obtain ⟨e, he, hp⟩ := hchain.1
      simp only [Bool.and_eq_true, decide_eq_true_eq] at hp
      rcases List.mem_cons.mp hx with hxa | hxtl
      · rw [hxa, ← hp.1]; exact (hclose e he).1
      · cases r with
        | nil =>
          rw [List.mem_singleton.mp hxtl, ← hp.2]
          exact (hclose e he).2
        | cons c r' =>
          exact ih hchain.2 (by simp) x hxtl

theorem chain_length_le {g : Graph}
    (hstrict : ∀ e ∈ g.edges, layerOfId e.src < layerOfId e.dst)
    (hclose : ∀ e ∈ g.edges, (∃ d, (e.src, d) ∈ g.nodes) ∧ (∃ d, (e.dst, d) ∈ g.nodes))
    {p : List NodeId} (h : chainB g p = true) : p.length ≤ g.nodes.length + 1 := by
  by_cases hlen : 2 ≤ p.length
  · have hsub : p ⊆ g.nodes.map (·.1) := by
      intro x hx
      obtain ⟨dx, hdx⟩ := chain_nodes hclose p h hlen x hx
      exact List.mem_map.mpr ⟨(x, dx), hdx, rfl⟩
    have := (List.subperm_of_subset (chain_nodup hstrict h) hsub).length_le
    rw [List.length_map] at this
    exact le_trans this (Nat.le_succ _)
  · omega

theorem walk_of_chain {g : Graph} :
    ∀ n (tl : List NodeId) (u : NodeId), chainB g (u :: tl) = true →
      (u :: tl).length ≤ n + 1 → (u :: tl) ∈ gWalksFrom g n u := by
  intro n
  induction n with
  | zero =>
    intro tl u hchain hlen
    cases tl with
    | nil => exact List.mem_singleton.mpr rfl
    | cons b r => simp at hlen
  | succ n ih =>
    intro tl u hchain hlen
    cases tl with
    | nil => exact List.mem_append_left _ (List.mem_singleton.mpr rfl)
    | cons b r =>
      rw [chainB, Bool.and_eq_true] at hchain
      unfold adjB at hchain
      obtain ⟨hadj, hchain2⟩ := hchain
      rw [List.any_eq_true] at hadj
      obtain ⟨e, he, hp⟩ := hadj
      simp only [Bool.and_eq_true, decide_eq_true_eq] at hp
      refine List.mem_append_right _ ?_
      rw [List.mem_bind]
      refine ⟨e, List.mem_filter.mpr ⟨he, by simp [hp.1]⟩, ?_⟩
      rw [List.mem_map]
      refine ⟨b :: r, ?_, rfl⟩
      rw [hp.2]
      exact ih r b hchain2 (by simpa using Nat.le_of_succ_le_succ (by simpa using hlen))

theorem pruneAset_acc_mono {g : Graph} :
    ∀ (l : List NodeId) (acc : List NodeId),
      acc ⊆ l.foldl (fun acc t => acc ++ (ancestors g t).filter fun x => !acc.contains x) acc := by
  intro l
  induction l with
  | nil => intro acc; exact fun _ h => h
  | cons t rest ih =>
    intro acc
    exact fun x hx => ih _ (List.mem_append_left _ hx)

theorem mem_pruneAset_sound {g : Graph} :
    ∀ (l : List NodeId) (acc : List NodeId) (x : NodeId),
      x ∈ l.foldl (fun acc t => acc ++ (ancestors g t).filter fun x => !acc.contains x) acc →
      x ∈ acc ∨ ∃ t ∈ l, x ∈ ancestors g t := by
  intro l
  induction l with
  | nil => intro acc x hx; exact Or.inl hx
  | cons t rest ih =>
    intro acc x hx
    rcases ih _ x hx with hx2 | ⟨t', ht', hanc⟩
    · rcases List.mem_append.mp hx2 with hx3 | hx3
      · exact Or.inl hx3
      · exact Or.inr ⟨t, List.mem_cons_self t rest, (List.mem_filter.mp hx3).1⟩
    · exact Or.inr ⟨t', List.mem_cons_of_mem t ht', hanc⟩

theorem mem_pruneAset_complete {g : Graph} :
    ∀ (l : List NodeId) (acc : List NodeId) (x : NodeId) (t : NodeId), t ∈ l →
      x ∈ ancestors g t →
      x ∈ l.foldl (fun acc t => acc ++ (ancestors g t).filter fun x => !acc.contains x) acc := by
  intro l
  induction l with
  | nil => intro acc x t ht; exact absurd ht (List.not_mem_nil t)
  | cons t0 rest ih =>
    intro acc x t ht hanc
    rcases List.mem_cons.mp ht with hteq | htrest
    · refine pruneAset_acc_mono rest _ ?_
      cases hc : acc.contains x with
      | false =>
        refine List.mem_append_right _ ?_
        rw [hteq] at hanc
        exact List.mem_filter.mpr ⟨hanc, by rw [hc]; rfl⟩
      | true => exact List.mem_append_left _ (List.elem_iff.mp hc)
    · exact ih _ x t htrest hanc

theorem walkLast_append_last :
    ∀ (p : List NodeId) (m : NodeId) (q : List NodeId), walkLast p = m →
      walkLast (p ++ q) = walkLast (m :: q) := by
  intro p m q hp
  cases q with
  | nil => rw [List.append_nil, hp]; rfl
  | cons b r =>
    rw [walkLast_append p b r rfl]
    rfl

theorem chain_in_sub {g2 sub : Graph} (h3 : pruneStep3 g2 = some sub) :
    ∀ p, chainB g2 p = true →
      (∀ x ∈ p, (pruneValidList g2).contains x = true ∧ ∃ dx, (x, dx) ∈ g2.nodes) →
      chainB sub p = true := by
  intro p
  induction p with
  | nil => intro _ _; rfl
  | cons a tl ih =>
    intro hchain hall
    cases tl with
    | nil => rfl
    | cons b r =>
      rw [chainB, Bool.and_eq_true] at hchain ⊢
      refine ⟨?_, ih hchain.2 fun x hx => hall x (List.mem_cons_of_mem a hx)⟩
      have hadj := hchain.1
      unfold adjB at hadj ⊢
      rw [List.any_eq_true] at hadj ⊢
      obtain ⟨e, he, hp⟩ := hadj
      simp only [Bool.and_eq_true, decide_eq_true_eq] at hp
      obtain ⟨hva, da, hda⟩ :
          (pruneValidList g2).contains a = true ∧ ∃ da, (a, da) ∈ g2.nodes := by
        obtain ⟨h1, h2⟩ := hall a (List.mem_cons_self a _)
        exact ⟨h1, h2⟩
      obtain ⟨hvb, db, hdb⟩ :
          (pruneValidList g2).contains b = true ∧ ∃ db, (b, db) ∈ g2.nodes := by
        obtain ⟨h1, h2⟩ := hall b (List.mem_cons_of_mem a (List.mem_cons_self b _))
        exact ⟨h1, h2⟩
      refine ⟨e, ?_, by simp [hp.1, hp.2]⟩
      rw [(pruneStep3_eq h3).2]
      refine List.mem_filter.mpr ⟨he, ?_⟩
      rw [Bool.and_eq_true, List.any_eq_true, List.any_eq_true]
      constructor
      · refine ⟨(a, da), ?_, by simp [hp.1]⟩
        exact List.mem_filter.mpr ⟨hda, hva⟩
      · refine ⟨(b, db), ?_, by simp [hp.2]⟩
        exact List.mem_filter.mpr ⟨hdb, hvb⟩

theorem pruneStep3_reach {g2 sub : Graph} (hinv2 : GraphInv g2)
    (hp3 : pruneStep3 g2 = some sub) {n : NodeId} {d : NData}
    (hn : (n, d) ∈ sub.nodes) (hns : n ≠ .source)
    (hnh : isHardEntryB sub n = false) :
    liesOnSourceHardWalk sub n := by
  have hinvsub : GraphInv sub := graphInv_pruneStep3 hinv2 hp3
  have hstrict2 : ∀ e ∈ g2.edges, layerOfId e.src < layerOfId e.dst :=
    fun e he => (hinv2.1 e he).2.1
  have hclose2 : ∀ e ∈ g2.edges,
      (∃ d, (e.src, d) ∈ g2.nodes) ∧ (∃ d, (e.dst, d) ∈ g2.nodes) :=
    fun e he => ⟨(hinv2.1 e he).2.2.1, (hinv2.1 e he).2.2.2⟩
  have hardSurv : ∀ t ∈ pruneTargets g2, isHardEntryB sub t = true := by
    intro t ht
    have htv : (pruneValidList g2).contains t = true :=
      List.elem_iff.mpr (List.mem_append_right _ ht)
    unfold pruneTargets at ht
    rw [List.mem_map] at ht
    obtain ⟨q, hq, hfst⟩ := ht
    rw [List.mem_filter] at hq
    have hqsub : q ∈ sub.nodes :=
      (pruneStep3_nodes hp3).mpr ⟨hq.1, by rw [hfst]; exact htv⟩
    unfold isHardEntryB
    rw [List.any_eq_true]
    exact ⟨q, hqsub, by simp [hfst, hq.2]⟩
  have hnt : n ∉ pruneTargets g2 := by
    intro hmem
    rw [hardSurv n hmem] at hnh
    exact absurd hnh (by simp)
  have hvl : n ∈ pruneValidList g2 :=
    List.elem_iff.mp ((pruneStep3_nodes hp3).mp hn).2
  have hdn : n ∈ descendants g2 .source ∧ n ∈ pruneAset g2 := by
    rcases List.mem_append.mp hvl with h1 | h1
    · rcases List.mem_append.mp h1 with h2 | h2
      · rw [List.mem_filter] at h2
        exact ⟨h2.1, List.elem_iff.mp h2.2⟩
      · exact absurd (List.mem_singleton.mp h2) hns
    · exact absurd h1 hnt
  obtain ⟨hdesc, haset⟩ := hdn
  unfold descendants at hdesc
  rw [List.mem_filter] at hdesc
  obtain ⟨y, hy, tl1, hchain1, hlast1⟩ :=
    reach_sound g2.nodes.length [NodeId.source] n hdesc.1
  rw [List.mem_singleton.mp hy] at hchain1 hlast1
  rcases mem_pruneAset_sound (pruneTargets g2) [] n haset with habs | ⟨t0, ht0, hanc⟩
  · exact absurd habs (List.not_mem_nil n)
  unfold ancestors at hanc
  rw [List.mem_filter] at hanc
  obtain ⟨y2, hy2, tl2, hchain2, hlast2⟩ :=
    reach_sound g2.nodes.length [t0] n hanc.1
  rw [List.mem_singleton.mp hy2] at hchain2 hlast2
  have hF := chain_flip (fun a b => (adjB_reversed g2 b a).symm) (t0 :: tl2) hchain2
  obtain ⟨tl3, hrev, hrevlast⟩ := reverse_head_last tl2 t0
  rw [hlast2] at hrev
  rw [hrev] at hF
  have hlastN : walkLast (n :: tl3) = t0 := by rw [← hrev]; exact hrevlast
  have hchainW : chainB g2 ((NodeId.source :: tl1) ++ tl3) = true :=
    chain_append_chain _ n tl3 hchain1 hlast1 hF
  have hlastW : walkLast ((NodeId.source :: tl1) ++ tl3) = t0 :=
    (walkLast_append_last _ n tl3 hlast1).trans hlastN
  have hW2 : 2 ≤ ((NodeId.source :: tl1) ++ tl3).length := by
    cases tl1 with
    | nil => exact absurd hlast1.symm hns
    | cons b r => simp
  have hWnodes : ∀ x ∈ (NodeId.source :: tl1) ++ tl3, ∃ dx, (x, dx) ∈ g2.nodes :=
    chain_nodes hclose2 _ hchainW hW2
  have hWvalid : ∀ x ∈ (NodeId.source :: tl1) ++ tl3,
      (pruneValidList g2).contains x = true := by
    intro x hx
    refine List.elem_iff.mpr ?_
    by_cases hxs : x = NodeId.source
    · rw [hxs]
      exact List.mem_append_left _ (List.mem_append_right _ (List.mem_singleton.mpr rfl))
    by_cases hxt : x ∈ pruneTargets g2
    · exact List.mem_append_right _ hxt
    obtain ⟨tlp, hchp, hlastp⟩ := chain_prefix (tl1 ++ tl3) NodeId.source x hchainW hx
    have hlenp := chain_length_le hstrict2 hclose2 hchp
    have hxdesc : x ∈ descendants g2 NodeId.source := by
      unfold descendants
      rw [List.mem_filter]
      refine ⟨?_, by simp [hxs]⟩
      have := reach_complete g2.nodes.length tlp NodeId.source hchp hlenp
        [NodeId.source] (List.mem_singleton.mpr rfl)
      rwa [hlastp] at this
    have hxanc : x ∈ ancestors g2 t0 := by
      obtain ⟨tls, hchs, hlasts⟩ := chain_suffix ((NodeId.source :: tl1) ++ tl3) x hchainW hx
      rw [hlastW] at hlasts
      have hFlip := chain_flip (fun a b => adjB_reversed g2 a b) (x :: tls) hchs
      obtain ⟨tl4, hrev4, hrevlast4⟩ := reverse_head_last tls x
      rw [hlasts] at hrev4
      rw [hrev4] at hFlip
      have hlen4 : (t0 :: tl4).length ≤ g2.nodes.length + 1 := by
        rw [← hrev4, List.length_reverse]
        exact chain_length_le hstrict2 hclose2 hchs
      have hreach4 := reach_complete g2.nodes.length tl4 t0 hFlip hlen4 [t0]
        (List.mem_singleton.mpr rfl)
      have hwl4 : walkLast (t0 :: tl4) = x := by rw [← hrev4]; exact hrevlast4
      rw [hwl4] at hreach4
      unfold ancestors
      rw [List.mem_filter]
      have hxne : x ≠ t0 := fun heq => hxt (heq ▸ ht0)
      exact ⟨hreach4, by simp [hxne]⟩
    refine List.mem_append_left _ (List.mem_append_left _ ?_)
    rw [List.mem_filter]
    exact ⟨hxdesc, List.elem_iff.mpr
      (mem_pruneAset_complete (pruneTargets g2) [] x t0 ht0 hxanc)⟩
  have hchainSub : chainB sub ((NodeId.source :: tl1) ++ tl3) = true :=
    chain_in_sub hp3 _ hchainW fun x hx => ⟨hWvalid x hx, hWnodes x hx⟩
  have hstrictSub : ∀ e ∈ sub.edges, layerOfId e.src < layerOfId e.dst :=
    fun e he => (hinvsub.1 e he).2.1
  have hcloseSub : ∀ e ∈ sub.edges,
      (∃ d, (e.src, d) ∈ sub.nodes) ∧ (∃ d, (e.dst, d) ∈ sub.nodes) :=
    fun e he => ⟨(hinvsub.1 e he).2.2.1, (hinvsub.1 e he).2.2.2⟩
  have hlenSub := chain_length_le hstrictSub hcloseSub hchainSub
  refine ⟨(NodeId.source :: tl1) ++ tl3,
    walk_of_chain sub.nodes.length (tl1 ++ tl3) NodeId.source hchainSub hlenSub, ?_, ?_⟩
  · rw [hlastW]
    exact hardSurv t0 ht0
  · exact List.mem_append_left _ (hlast1 ▸ walkLast_mem tl1 NodeId.source)

/-- C3, amended: on an invariant-satisfying master graph (every built
graph satisfies `GraphInv`), every node of a returned pruned subgraph
other than SOURCE and the hardness targets themselves lies on a
Source-to-Hardness walk within the subgraph.  The original claim fails
for hardness nodes: step 3 adds every surviving hardness target to
`valid_nodes` unconditionally, connected or not (see the
counterexample). -/
theorem c3_amended {st : SteelState} {fs : List (String × FVal)} {sub : Graph}
    (hg : GraphInv st.graph) (hp : pruneGraph st fs = some sub)
    {n : NodeId} {d : NData} (hn : (n, d) ∈ sub.nodes) (hns : n ≠ .source)
    (hnh : isHardEntryB sub n = false) :
    liesOnSourceHardWalk sub n := by
  rw [pruneGraph_eq] at hp
  exact pruneStep3_reach
    (graphInv_removeNodesWhere (graphInv_removeNodesWhere hg)) hp hn hns hnh

/-- C3 counterexample: on the `dsOrphan` dataset with the `time_range`
filter `[0, 100]`, record B's time node is removed, yet its hardness node
`Hardness: 60.0 HRC` survives step 3 unconditionally: the returned
subgraph holds a hardness node lying on no Source-to-Hardness walk. -/
theorem c3_counterexample :
    (pruneGraph stOrphan fsOrphan).isSome = true ∧
    ((getSub (pruneGraph stOrphan fsOrphan)).nodes.any fun p =>
      p.1 = NodeId.hard (some (mkRat 60 1)) && typeIsHard p.2) = true ∧
    ¬ liesOnSourceHardWalk (getSub (pruneGraph stOrphan fsOrphan))
        (NodeId.hard (some (mkRat 60 1))) := by
  refine ⟨by decide, by decide, ?_⟩
  unfold liesOnSourceHardWalk
  decide

theorem c3_amended_witness :
    (NodeId.time (mkRat 10 1) 0, NData.timeD (mkRat 10 1))
        ∈ (getSub (pruneGraph stOrphan fsOrphan)).nodes ∧
    liesOnSourceHardWalk (getSub (pruneGraph stOrphan fsOrphan))
      (NodeId.time (mkRat 10 1) 0) :=
  ⟨by decide,
    c3_amended
      (buildInv_of_state (rfl : buildState probeLog dsOrphan = Except.ok stOrphan)).1
      (rfl : pruneGraph stOrphan fsOrphan = some (getSub (pruneGraph stOrphan fsOrphan)))
      (show (NodeId.time (mkRat 10 1) 0, NData.timeD (mkRat 10 1))
          ∈ (getSub (pruneGraph stOrphan fsOrphan)).nodes by decide)
      (by decide) (by decide)⟩
